import Mathlib

/-!
# TextFlow: a shallow embedding of the region-based text flow engine

This file embeds the two `TextFlow` implementations of the repository:

* `TF`  — the canonical engine (`js/intro.js`, the class published as
  `window.TextFlow`): keep-with-next handling, binary-search paragraph
  splitting with an orphan-protection floor.
* `TFI` — the intro-page variant (`js/text-flow-intro.js`): no
  keep-with-next handling, word-by-word paragraph growth with a
  line-count budget and no orphan-protection floor.

Pixel heights (JS `Number`s read from `getBoundingClientRect`) are modelled
as rationals.  The DOM measurement facility is modelled as an abstract
`Oracle` record: `measureNodes` is `TextFlow.measureHeight` (clone nodes
into a temporary container of the sandbox width and read the container's
bounding height), `measureElem` is the direct
`element.getBoundingClientRect().height` read used inside
`splitParagraph`, and `lineHeight` is `TextFlow.getLineHeightPx` (a
function of the element's computed style only).
-/

/-! ## Words: `text.split(/\s+/).filter(Boolean)` and `words.join(' ')` -/

/-- Split a character list at every character satisfying `p` (the pieces
between separators, in order; empty pieces are kept, as in JS
`String.prototype.split`).  The result is always non-empty; a
non-separator character is prepended to the first piece of the result for
the remaining characters. -/
def splitChars (p : Char → Bool) : List Char → List (List Char)
  | [] => [[]]
  | c :: cs =>
    let r := splitChars p cs
    if p c then [] :: r else (c :: r.headD []) :: r.tail

/-- `text.split(/\s+/).filter(Boolean)`: splitting on a whitespace run and
dropping empty strings is the same as splitting at every whitespace
character and dropping empty strings. -/
def splitWs (s : String) : List String :=
  ((splitChars (fun c => c.isWhitespace) s.data).map (fun w => String.mk w)).filter
    (fun w => w ≠ "")

/-- `words.join(' ')`. -/
def joinWs : List String → String
  | [] => ""
  | [w] => w
  | w :: ws => w ++ " " ++ joinWs ws

/-- A word produced by `splitWs`: non-empty and whitespace-free. -/
def GoodWord (w : String) : Prop :=
  w ≠ "" ∧ ∀ c ∈ w.data, c.isWhitespace = false

theorem splitChars_ne_nil (p : Char → Bool) (cs : List Char) : splitChars p cs ≠ [] := by
  cases cs with
  | nil => simp [splitChars]
  | cons c cs =>
    simp only [splitChars]
    split <;> simp

theorem splitChars_no_sep (p : Char → Bool) (cs : List Char) :
    ∀ w ∈ splitChars p cs, ∀ c ∈ w, p c = false := by
  induction cs with
  | nil =>
    intro w hw c hc
    simp only [splitChars, List.mem_singleton] at hw
    subst hw
    simp at hc
  | cons a cs ih =>
    intro w hw c hc
    simp only [splitChars] at hw
    split at hw
    · rcases List.mem_cons.mp hw with hw | hw
      · subst hw; simp at hc
      · exact ih w hw c hc
    · next hp =>
      rcases List.mem_cons.mp hw with hw | hw
      · subst hw
        rcases List.mem_cons.mp hc with hc | hc
        · subst hc; simpa using hp
        · cases hsc : splitChars p cs with
          | nil => exact absurd hsc (splitChars_ne_nil p cs)
          | cons v vs =>
            rw [hsc] at hc
            exact ih v (hsc ▸ List.mem_cons_self v vs) c (by simpa using hc)
      · cases hsc : splitChars p cs with
        | nil => exact absurd hsc (splitChars_ne_nil p cs)
        | cons v vs =>
          rw [hsc] at hw
          exact ih w (hsc ▸ List.mem_cons_of_mem v (by simpa using hw)) c hc

theorem splitChars_of_no_sep (p : Char → Bool) (cs : List Char)
    (h : ∀ c ∈ cs, p c = false) : splitChars p cs = [cs] := by
  induction cs with
  | nil => rfl
  | cons a cs ih =>
    have ha : p a = false := h a (List.mem_cons_self a cs)
    have hcs : splitChars p cs = [cs] := ih (fun c hc => h c (List.mem_cons_of_mem a hc))
    simp [splitChars, ha, hcs]

theorem splitChars_append_sep (p : Char → Bool) (w rest : List Char) (sep : Char)
    (hw : ∀ c ∈ w, p c = false) (hsep : p sep = true) :
    splitChars p (w ++ sep :: rest) = w :: splitChars p rest := by
  induction w with
  | nil => simp [splitChars, hsep]
  | cons a w ih =>
    have ha : p a = false := hw a (List.mem_cons_self a w)
    have hw' : ∀ c ∈ w, p c = false := fun c hc => hw c (List.mem_cons_of_mem a hc)
    simp only [List.cons_append, splitChars, ha, Bool.false_eq_true, if_false, List.append_eq]
    rw [ih hw']
    simp

theorem data_joinWs_cons (w : String) (x : String) (ws : List String) :
    (joinWs (w :: x :: ws)).data = w.data ++ ' ' :: (joinWs (x :: ws)).data := by
  show (w ++ " " ++ joinWs (x :: ws)).data = _
  rw [String.data_append, String.data_append]
  simp

theorem splitWs_joinWs (ws : List String) (h : ∀ w ∈ ws, GoodWord w) :
    splitWs (joinWs ws) = ws := by
  induction ws with
  | nil => rfl
  | cons w ws ih =>
    rcases h w (List.mem_cons_self w ws) with ⟨hne, hgood⟩
    have hdata : ∀ c ∈ w.data, (fun c => c.isWhitespace) c = false := hgood
    cases ws with
    | nil =>
      show splitWs w = [w]
      unfold splitWs
      rw [splitChars_of_no_sep _ _ hdata]
      simp [hne]
    | cons x ws' =>
      have ih' : splitWs (joinWs (x :: ws')) = x :: ws' :=
        ih (fun v hv => h v (List.mem_cons_of_mem w hv))
      unfold splitWs
      rw [data_joinWs_cons, splitChars_append_sep _ _ _ ' ' hdata (by decide)]
      simp only [List.map_cons, List.filter_cons]
      have : (String.mk w.data ≠ "") = True := by
        simp only [eq_iff_iff, iff_true]
        intro hc
        exact hne (by cases w; simpa using hc)
      simp only [decide_eq_true_eq]
      rw [if_pos (by cases w; simpa using hne)]
      have : String.mk w.data = w := by cases w; rfl
      rw [this]
      unfold splitWs at ih'
      rw [ih']

theorem goodWord_splitWs (s : String) : ∀ w ∈ splitWs s, GoodWord w := by
  intro w hw
  unfold splitWs at hw
  rw [List.mem_filter] at hw
  rcases hw with ⟨hmem, hne⟩
  rw [List.mem_map] at hmem
  rcases hmem with ⟨cs, hcs, hmk⟩
  constructor
  · simpa using hne
  · intro c hc
    have : w.data = cs := by rw [← hmk]
    rw [this] at hc
    exact splitChars_no_sep _ _ cs hcs c hc

theorem splitWs_joinWs_take (s : String) (k : ℕ) :
    splitWs (joinWs ((splitWs s).take k)) = (splitWs s).take k :=
  splitWs_joinWs _ (fun w hw => goodWord_splitWs s w (List.take_subset k _ hw))

theorem splitWs_joinWs_drop (s : String) (k : ℕ) :
    splitWs (joinWs ((splitWs s).drop k)) = (splitWs s).drop k :=
  splitWs_joinWs _ (fun w hw => goodWord_splitWs s w (List.drop_subset k _ hw))

/-- The number of words of a text, `text.split(/\s+/).filter(Boolean).length`. -/
def wcount (t : String) : ℕ := (splitWs t).length

/-! ## Data model -/

/-- The two supported block kinds (`buildBlocks` skips anything else). -/
inductive BType where
  | heading
  | paragraph
deriving DecidableEq, Repr

/-- A DOM element produced by `createHeading` / `createParagraph`: the tag
(with the clamped heading level) and its `textContent`. -/
inductive Elem where
  | heading (level : ℚ) (text : String)
  | para (text : String)
deriving DecidableEq, Repr

/-- `el.textContent`. -/
def Elem.text : Elem → String
  | .heading _ t => t
  | .para t => t

/-- `el.textContent = t` (assignment): same element with new text. -/
def Elem.withText : Elem → String → Elem
  | .heading l _, t => .heading l t
  | .para _, t => .para t

/-- A canonical block as produced by `TextFlow.buildBlocks` (the
`elFactory` closure is determined by `btype`, `level` and the built
`text`, see `blockElem`).  Queue entries in `flow` are shallow copies of
these records whose `text` field may be rewritten by paragraph splitting. -/
structure Block where
  id : String
  btype : BType
  level : Option ℚ
  text : String
  keepWithNext : Bool
  orphanProtection : ℚ
deriving DecidableEq, Repr

/-- A raw JSON block record, at the fields `buildBlocks` reads.
`keepWithNext` is the result of the JS `Boolean(b.keepWithNext)` coercion;
`orphanProtection` is `some n` exactly when `typeof b.orphanProtection
=== 'number'`; `text` is `some s` when `b.text` is a truthy string
(`String(b.text || '')` yields `""` otherwise); `level` is `some l` when
`b.level` is a number. -/
structure RawBlock where
  rtype : String
  id : Option String
  level : Option ℚ
  text : Option String
  keepWithNext : Bool
  orphanProtection : Option ℚ
deriving DecidableEq, Repr

/-- One step of `TextFlow.buildBlocks`'s `forEach`: normalize a raw block
at position `index`, or skip it (unsupported `type`). -/
def buildBlock (index : ℕ) (b : RawBlock) : Option Block :=
  let id := b.id.getD ("blk-" ++ toString index)
  let keepWithNext := b.keepWithNext
  -- `typeof b.orphanProtection === 'number' ? b.orphanProtection : 2`
  let orphanProtection := b.orphanProtection.getD 2
  let text := b.text.getD ""
  -- `const level = b.level || (type === 'heading' ? 2 : undefined)`
  let level : Option ℚ :=
    match b.level with
    | some l => if l = 0 then (if b.rtype = "heading" then some 2 else none) else some l
    | none => if b.rtype = "heading" then some 2 else none
  if b.rtype = "heading" then
    some { id, btype := .heading, level, text, keepWithNext, orphanProtection }
  else if b.rtype = "paragraph" then
    -- the paragraph record pushed by the source carries no `level` field
    some { id, btype := .paragraph, level := none, text, keepWithNext, orphanProtection }
  else none

/-- `TextFlow.buildBlocks`. -/
def buildBlocks (raws : List RawBlock) : List Block :=
  raws.enum.filterMap (fun p => buildBlock p.1 p.2)

/-- `createHeading`'s level clamp: `Math.min(Math.max(Number(level || 2), 2), 4)`
(a falsy — absent or zero — level falls back to 2). -/
def clampLevel (level : Option ℚ) : ℚ :=
  min (max (match level with
            | some l => if l = 0 then 2 else l
            | none => 2) 2) 4

/-- The element built by a queue block's `elFactory` when called with text
`t`: a heading's factory ignores its argument and renders the captured
block text (headings are never retexted by `flow`, so the captured text is
the queue entry's text); a paragraph's factory renders `t`. -/
def blockElem (b : Block) (t : String) : Elem :=
  match b.btype with
  | .heading => .heading (clampLevel b.level) b.text
  | .paragraph => .para t

/-- A region as seen by one flow pass: the metrics `getRegionMetrics`
computes from the live layout, plus whether the `.flow-content` wrapper
lookup succeeds (`js/intro.js` skips a region whose wrapper is missing;
`js/text-flow-intro.js` writes into the region node itself). -/
structure Region where
  hasWrap : Bool
  availableHeight : ℚ
  innerWidth : ℚ
deriving DecidableEq, Repr

/-- The measurement facility (see the file header). -/
structure Oracle where
  measureNodes : ℚ → List Elem → ℚ
  measureElem : ℚ → Elem → ℚ
  lineHeight : Elem → ℚ

/-- One `wrap.appendChild` group performed by the flow loop: the appended
element(s) and the measured height added to `used`. -/
structure Placement where
  els : List Elem
  height : ℚ
deriving DecidableEq, Repr

/-- Result record of `splitParagraph`. -/
structure SplitResult where
  fitsWords : ℤ
  firstText : String
  restText : String
deriving DecidableEq, Repr

/-- `Math.max(1, Number(block.orphanProtection || 2))`: the minimum line
floor of a paragraph block (a zero `orphanProtection` is falsy and falls
back to 2). -/
def minLinesOf (b : Block) : ℚ :=
  max 1 (if b.orphanProtection = 0 then 2 else b.orphanProtection)

/-- Sum of the measured heights of the placements of one region. -/
def sumHeights (ps : List Placement) : ℚ :=
  (ps.map Placement.height).sum

/-- All words placed by a list of placements, in order. -/
def placedWords (ps : List Placement) : List String :=
  ps.flatMap (fun p => p.els.flatMap (fun e => splitWs e.text))

/-- All words still pending in a queue, in order. -/
def queueWords (q : List Block) : List String :=
  q.flatMap (fun b => splitWs b.text)

/-- Termination measure for the per-region flow loop: every placement
either consumes whole blocks or strictly reduces the head paragraph's
word count. -/
def queueSize (q : List Block) : ℕ :=
  (q.map (fun b => wcount b.text + 1)).sum

/-! ## Binary search over word counts (`js/intro.js`, `splitParagraph`) -/

/-- The `while (lo <= hi)` binary search of `TextFlow.splitParagraph`
(`js/intro.js`): `mid = Math.floor((lo + hi) / 2)` (on `ℤ`, `/` is
floor division, matching `Math.floor`); a fitting `mid` becomes the new
`best` and raises `lo`, otherwise `hi` is lowered. -/
def bsearchWords (fits : ℤ → Bool) (lo hi best : ℤ) : ℤ :=
  if lo ≤ hi then
    let mid := (lo + hi) / 2
    if fits mid then bsearchWords fits (mid + 1) hi mid
    else bsearchWords fits lo (mid - 1) best
  else best
termination_by (hi + 1 - lo).toNat
decreasing_by all_goals omega

theorem bsearchWords_bounds (fits : ℤ → Bool) (n : ℤ) (lo hi best : ℤ) :
    1 ≤ lo → 0 ≤ best → best ≤ n → hi ≤ n →
      0 ≤ bsearchWords fits lo hi best ∧ bsearchWords fits lo hi best ≤ n ∧
        (bsearchWords fits lo hi best = best ∨ 1 ≤ bsearchWords fits lo hi best) := by
  induction lo, hi, best using bsearchWords.induct fits with
  | case1 lo hi best hle mid hfits ih =>
    intro h1 h0 hbn hhn
    rw [bsearchWords, if_pos hle]
    simp only [show (lo + hi) / 2 = mid from rfl, hfits, if_pos]
    have := ih (by omega) (by omega) (by omega) hhn
    rcases this with ⟨a, b, c⟩
    exact ⟨a, b, by omega⟩
  | case2 lo hi best hle mid hfits ih =>
    intro h1 h0 hbn hhn
    rw [bsearchWords, if_pos hle]
    simp only [show (lo + hi) / 2 = mid from rfl, hfits]
    simp only [Bool.false_eq_true, if_false]
    exact ih h1 h0 hbn (by omega)
  | case3 lo hi best hle =>
    intro h1 h0 hbn hhn
    rw [bsearchWords, if_neg hle]
    exact ⟨h0, hbn, Or.inl rfl⟩

/-! ## The canonical engine (`js/intro.js`) -/

namespace TF

/-- `splitParagraph`'s `minHeight = lineHeight * minLines`, where the
measuring element is `block.elFactory('')` and
`lineHeight = this.getLineHeightPx(measureP)`. -/
def minHeightOf (O : Oracle) (b : Block) : ℚ :=
  O.lineHeight (blockElem b "") * minLinesOf b

/-- The fit test of `splitParagraph`'s binary search: set
`measureP.textContent = words.slice(0, mid).join(' ')`, read the element's
bounding height, compare with the available height.  `words.slice(0, mid)`
is `take mid.toNat` (`mid` is provably positive at every use). -/
def fitsPrefix (O : Oracle) (w : ℚ) (b : Block) (availableHeight : ℚ) (mid : ℤ) : Bool :=
  decide (O.measureElem w
    ((blockElem b "").withText (joinWs ((splitWs b.text).take mid.toNat))) ≤ availableHeight)

/-- The `best` found by `splitParagraph`'s binary search
(`lo = 1, hi = words.length, best = 0`). -/
def bestWords (O : Oracle) (w : ℚ) (b : Block) (availableHeight : ℚ) : ℤ :=
  bsearchWords (fitsPrefix O w b availableHeight) 1 ((splitWs b.text).length : ℤ) 0

/-- `TextFlow.splitParagraph` (`js/intro.js`): split a paragraph block for
an available height.  `w` is the sandbox width (set to the region's inner
width by `flow`).  `words.slice(0, best)` / `words.slice(best)` are
`take` / `drop` of `best.toNat` (`best` is provably non-negative). -/
def splitParagraph (O : Oracle) (w : ℚ) (b : Block) (availableHeight : ℚ) : SplitResult :=
  let text := b.text
  let words := splitWs text
  if words = [] then { fitsWords := 0, firstText := "", restText := "" }
  else
    -- if we cannot fit even the minimum lines, defer to next region
    if availableHeight < minHeightOf O b then { fitsWords := 0, firstText := "", restText := text }
    else
      -- binary search the maximum words that fit within availableHeight
      let best := bestWords O w b availableHeight
      if best = 0 then { fitsWords := 0, firstText := "", restText := text }
      else
        -- ensure fragment itself has at least minLines
        let fragHeight :=
          O.measureElem w ((blockElem b "").withText (joinWs (words.take best.toNat)))
        if fragHeight < minHeightOf O b then { fitsWords := 0, firstText := "", restText := text }
        else
          { fitsWords := best,
            firstText := joinWs (words.take best.toNat),
            restText := joinWs (words.drop best.toNat) }

theorem bestWords_nonneg (O : Oracle) (w : ℚ) (b : Block) (avail : ℚ) :
    0 ≤ bestWords O w b avail ∧ bestWords O w b avail ≤ ((splitWs b.text).length : ℤ) := by
  have := bsearchWords_bounds (fitsPrefix O w b avail) ((splitWs b.text).length : ℤ) 1
    ((splitWs b.text).length : ℤ) 0 (by omega) (by omega) (by positivity) (le_refl _)
  exact ⟨this.1, this.2.1⟩

/-- Case equation: the fully successful branch of `splitParagraph`. -/
theorem splitParagraph_eq_pos (O : Oracle) (w : ℚ) (b : Block) (avail : ℚ)
    (h1 : splitWs b.text ≠ [])
    (h2 : ¬ avail < minHeightOf O b)
    (h3 : bestWords O w b avail ≠ 0)
    (h4 : ¬ O.measureElem w
        ((blockElem b "").withText (joinWs ((splitWs b.text).take (bestWords O w b avail).toNat))) <
      minHeightOf O b) :
    splitParagraph O w b avail =
      { fitsWords := bestWords O w b avail,
        firstText := joinWs ((splitWs b.text).take (bestWords O w b avail).toNat),
        restText := joinWs ((splitWs b.text).drop (bestWords O w b avail).toNat) } := by
  simp [splitParagraph, h1, h2, h3, h4]

/-- Case analysis: any `splitParagraph` result is either a rejection
(`fitsWords = 0` with the whole paragraph as remainder, or an empty word
list) or the successful record. -/
theorem splitParagraph_cases (O : Oracle) (w : ℚ) (b : Block) (avail : ℚ) :
    (splitWs b.text = [] ∧
      splitParagraph O w b avail = { fitsWords := 0, firstText := "", restText := "" }) ∨
    (splitWs b.text ≠ [] ∧
      splitParagraph O w b avail = { fitsWords := 0, firstText := "", restText := b.text }) ∨
    (splitWs b.text ≠ [] ∧ bestWords O w b avail ≠ 0 ∧
      splitParagraph O w b avail =
        { fitsWords := bestWords O w b avail,
          firstText := joinWs ((splitWs b.text).take (bestWords O w b avail).toNat),
          restText := joinWs ((splitWs b.text).drop (bestWords O w b avail).toNat) }) := by
  by_cases h1 : splitWs b.text = []
  · exact Or.inl ⟨h1, by simp [splitParagraph, h1]⟩
  · by_cases h2 : avail < minHeightOf O b
    · exact Or.inr (Or.inl ⟨h1, by simp [splitParagraph, h1, h2]⟩)
    · by_cases h3 : bestWords O w b avail = 0
      · exact Or.inr (Or.inl ⟨h1, by simp [splitParagraph, h1, h2, h3]⟩)
      · by_cases h4 : O.measureElem w
            ((blockElem b "").withText
              (joinWs ((splitWs b.text).take (bestWords O w b avail).toNat))) <
            minHeightOf O b
        · exact Or.inr (Or.inl ⟨h1, by simp [splitParagraph, h1, h2, h3, h4]⟩)
        · exact Or.inr (Or.inr ⟨h1, h3, splitParagraph_eq_pos O w b avail h1 h2 h3 h4⟩)

theorem splitParagraph_shape (O : Oracle) (w : ℚ) (b : Block) (avail : ℚ)
    (h : (splitParagraph O w b avail).fitsWords ≠ 0) :
    ∃ k : ℕ, 1 ≤ k ∧ k ≤ (splitWs b.text).length ∧
      (splitParagraph O w b avail).fitsWords = (k : ℤ) ∧
      (splitParagraph O w b avail).firstText = joinWs ((splitWs b.text).take k) ∧
      (splitParagraph O w b avail).restText = joinWs ((splitWs b.text).drop k) := by
  rcases splitParagraph_cases O w b avail with ⟨_, he⟩ | ⟨_, he⟩ | ⟨h1, h3, he⟩
  · rw [he] at h; simp at h
  · rw [he] at h; simp at h
  · have hb := bestWords_nonneg O w b avail
    refine ⟨(bestWords O w b avail).toNat, by omega, by omega, ?_, ?_, ?_⟩
    · rw [he]; simp; omega
    · rw [he]
    · rw [he]

theorem splitParagraph_rest_lt (O : Oracle) (w : ℚ) (b : Block) (avail : ℚ)
    (h : (splitParagraph O w b avail).fitsWords ≠ 0) :
    wcount ((splitParagraph O w b avail).restText) < wcount b.text := by
  rcases splitParagraph_shape O w b avail h with ⟨k, hk1, hkn, _, _, hrest⟩
  rw [wcount, wcount, hrest, splitWs_joinWs_drop, List.length_drop]
  omega

theorem splitParagraph_zero_rest (O : Oracle) (w : ℚ) (b : Block) (avail : ℚ)
    (hne : splitWs b.text ≠ []) (h : (splitParagraph O w b avail).fitsWords = 0) :
    (splitParagraph O w b avail).restText = b.text := by
  rcases splitParagraph_cases O w b avail with ⟨h1, _⟩ | ⟨_, he⟩ | ⟨h1, h3, he⟩
  · exact absurd h1 hne
  · rw [he]
  · rw [he] at h; simp at h; exact absurd h h3

end TF

namespace TF

/-- The `while (queue.length > 0)` loop of `TextFlow.flow` (`js/intro.js`)
for one region: `w` is the region's inner width (the sandbox width),
`avail` its available height, `used` the height consumed so far.  Returns
the groups appended to the region's `.flow-content` wrapper, in order, and
the queue as left when the loop exits (by emptiness, exhausted space, or a
`break` deferring the head block to the next region).

Branches, in source order: keep-with-next (head has `keepWithNext` and a
second queue entry exists — `elFactory` calls reduce to `blockElem`, a
heading factory ignoring its argument and a paragraph factory receiving
the entry's current text), single-block fit, heading `break`, paragraph
split (a zero-word split breaks; otherwise the fragment is re-measured and
either placed — rewriting the head's `text` to the remainder — or the
region is abandoned).

The source guards the keep-with-next branch with
`block.keepWithNext && queue.length >= 2`, so the remaining single-block
path is transcribed once for each queue-tail shape (a one-element queue,
and a longer queue whose head has `keepWithNext` false). -/
def flowLoop (O : Oracle) (w avail : ℚ) : ℚ → List Block → List Placement × List Block
  | _, [] => ([], [])
  | used, [block] =>
    if avail - used ≤ 0 then ([], [block])
    else
      -- queue.length < 2: keep-with-next does not apply
      let el := blockElem block block.text
      let h := O.measureNodes w [el]
      if h ≤ avail - used then
        let r := flowLoop O w avail (used + h) []
        ({ els := [el], height := h } :: r.1, r.2)
      else if block.btype ≠ BType.paragraph then ([], [block])
      else
        let split := splitParagraph O w block (avail - used)
        if split.fitsWords = 0 then ([], [block])
        else
          let fragEl := blockElem block split.firstText
          let fragHeight := O.measureNodes w [fragEl]
          if fragHeight ≤ avail - used then
            let r := flowLoop O w avail (used + fragHeight)
              [{ block with text := split.restText }]
            ({ els := [fragEl], height := fragHeight } :: r.1, r.2)
          else ([], [block])
  | used, block :: next :: rest2 =>
    if avail - used ≤ 0 then ([], block :: next :: rest2)
    else if block.keepWithNext then
      let elA := blockElem block block.text
      let elB := blockElem next next.text
      let heightTogether := O.measureNodes w [elA, elB]
      if heightTogether ≤ avail - used then
        let r := flowLoop O w avail (used + heightTogether) rest2
        ({ els := [elA, elB], height := heightTogether } :: r.1, r.2)
      else ([], block :: next :: rest2)
    else
      let el := blockElem block block.text
      let h := O.measureNodes w [el]
      if h ≤ avail - used then
        let r := flowLoop O w avail (used + h) (next :: rest2)
        ({ els := [el], height := h } :: r.1, r.2)
      else if block.btype ≠ BType.paragraph then ([], block :: next :: rest2)
      else
        let split := splitParagraph O w block (avail - used)
        if split.fitsWords = 0 then ([], block :: next :: rest2)
        else
          let fragEl := blockElem block split.firstText
          let fragHeight := O.measureNodes w [fragEl]
          if fragHeight ≤ avail - used then
            let r := flowLoop O w avail (used + fragHeight)
              ({ block with text := split.restText } :: next :: rest2)
            ({ els := [fragEl], height := fragHeight } :: r.1, r.2)
          else ([], block :: next :: rest2)
termination_by _u queue => queueSize queue
decreasing_by
  all_goals simp only [queueSize, List.map_cons, List.map_nil, List.sum_cons, List.sum_nil]
  all_goals try omega
  all_goals have hlt := splitParagraph_rest_lt O w block (avail - used) (by assumption)
  all_goals omega

end TF

namespace TF

/-- The `for` loop over regions of `TextFlow.flow` (`js/intro.js`): per
region, skip when the `.flow-content` wrapper is missing or when the
metrics are non-positive (`continue` — the queue is untouched and an empty
region output is recorded); otherwise set the sandbox width to the
region's inner width and run the per-region loop, threading the queue.
Returns the per-region placement lists (in region order) and the queue
left after the last region (silently dropped content). -/
def flowRegions (O : Oracle) : List Region → List Block → List (List Placement) × List Block
  | [], queue => ([], queue)
  | r :: rs, queue =>
    if r.hasWrap = false then
      let t := flowRegions O rs queue
      ([] :: t.1, t.2)
    else if r.availableHeight ≤ 0 ∨ r.innerWidth ≤ 0 then
      let t := flowRegions O rs queue
      ([] :: t.1, t.2)
    else
      let res := flowLoop O r.innerWidth r.availableHeight 0 queue
      let t := flowRegions O rs res.2
      (res.1 :: t.1, t.2)

/-- `TextFlow.flow` (`js/intro.js`): early-return when there are no blocks
or no regions; otherwise clear the regions and flow a fresh shallow copy
of `this.blocks` (`queue = this.blocks.map((b) => ({ ...b, text: b.text }))`)
through the regions. -/
def flow (O : Oracle) (blocks : List Block) (regions : List Region) :
    List (List Placement) × List Block :=
  if blocks.isEmpty ∨ regions.isEmpty then ([], [])
  else
    let queue := blocks.map (fun b => { b with text := b.text })
    flowRegions O regions queue

/-- One invocation of `flow()` on the engine state: the rendered placement
together with `this.blocks` after the call.  The pass reads `this.blocks`
but never writes it — paragraph splitting rewrites `text` only on the
queue's shallow copies (`js/intro.js`, the `queue` construction and
`block.text = restText`) — so the stored block list is returned unchanged. -/
def flowPass (O : Oracle) (blocks : List Block) (regions : List Region) :
    (List (List Placement) × List Block) × List Block :=
  (flow O blocks regions, blocks)

end TF

/-! ## The intro-page variant (`js/text-flow-intro.js`) -/

namespace TFI

/-- The word-growing `for` loop of `splitParagraph`
(`js/text-flow-intro.js`): starting from `currentText`, append the next
word (space-separated unless the accumulator is empty), measure the
element with that text, convert to a line count via
`Math.ceil(height / lineHeight)`, and accept while the count stays within
`maxLines`; the first rejection breaks the loop.  `base` is the measuring
element (`block.elFactory('')`), `i` the current word index, `bestCount`
the accepted word count so far (`i + 1` after an acceptance). -/
def growLoop (O : Oracle) (w lh : ℚ) (maxLines : ℤ) (base : Elem) :
    List String → String → String → ℤ → ℤ → String × ℤ
  | [], _, bestText, bestCount, _ => (bestText, bestCount)
  | word :: ws, currentText, bestText, bestCount, i =>
    let testText := currentText ++ (if currentText = "" then "" else " ") ++ word
    let currentHeight := O.measureElem w (base.withText testText)
    let currentLines := ⌈currentHeight / lh⌉
    if currentLines ≤ maxLines then
      growLoop O w lh maxLines base ws testText testText (i + 1) (i + 1)
    else (bestText, bestCount)

theorem growLoop_count (O : Oracle) (w lh : ℚ) (maxLines : ℤ) (base : Elem) :
    ∀ (ws : List String) (cur bt : String) (bc i : ℤ), 0 ≤ i →
      (growLoop O w lh maxLines base ws cur bt bc i).2 = bc ∨
        1 ≤ (growLoop O w lh maxLines base ws cur bt bc i).2 := by
  intro ws
  induction ws with
  | nil => intro cur bt bc i _; exact Or.inl rfl
  | cons word ws ih =>
    intro cur bt bc i hi
    by_cases hacc : ⌈O.measureElem w
        (base.withText (cur ++ (if cur = "" then "" else " ") ++ word)) / lh⌉ ≤ maxLines
    · have he : growLoop O w lh maxLines base (word :: ws) cur bt bc i =
          growLoop O w lh maxLines base ws
            (cur ++ (if cur = "" then "" else " ") ++ word)
            (cur ++ (if cur = "" then "" else " ") ++ word) (i + 1) (i + 1) := by
        simp only [growLoop, hacc, if_true]
      rw [he]
      rcases ih (cur ++ (if cur = "" then "" else " ") ++ word)
        (cur ++ (if cur = "" then "" else " ") ++ word) (i + 1) (i + 1) (by omega) with h | h
      · right; omega
      · exact Or.inr h
    · have he : growLoop O w lh maxLines base (word :: ws) cur bt bc i = (bt, bc) := by
        simp only [growLoop, hacc, if_false]
      rw [he]
      exact Or.inl rfl

/-- `maxLines = Math.floor(availableHeight / lineHeight)`, with the line
height taken from the measuring element `block.elFactory('')`. -/
def maxLinesOf (O : Oracle) (b : Block) (availableHeight : ℚ) : ℤ :=
  ⌊availableHeight / O.lineHeight (blockElem b "")⌋

/-- The `(bestText, bestWordCount)` produced by the growth loop of
`splitParagraph` (initial accumulators `''`, `''`, `0`, index `0`). -/
def grown (O : Oracle) (w : ℚ) (b : Block) (availableHeight : ℚ) : String × ℤ :=
  growLoop O w (O.lineHeight (blockElem b "")) (maxLinesOf O b availableHeight)
    (blockElem b "") (splitWs b.text) "" "" 0 0

/-- The `(bestText, bestWordCount)` after the single-word fallback:
`if (bestWordCount === 0 && words.length > 0)` re-measure just `words[0]`
against the raw available height and accept it if it fits. -/
def bestPair (O : Oracle) (w : ℚ) (b : Block) (availableHeight : ℚ) : String × ℤ :=
  if (grown O w b availableHeight).2 = 0 ∧ splitWs b.text ≠ [] then
    if O.measureElem w ((blockElem b "").withText ((splitWs b.text).headD "")) ≤ availableHeight
    then ((splitWs b.text).headD "", 1)
    else grown O w b availableHeight
  else grown O w b availableHeight

/-- `TextFlow.splitParagraph` (`js/text-flow-intro.js`): compute the line
budget, reject when not even one line fits, grow word by word within the
budget (with the single-word fallback), and return the remainder as the
unfitted words, space-joined.  There is no orphan-protection handling in
this variant.  `words.slice(bestWordCount)` is `drop bestWordCount.toNat`
(the count is provably non-negative). -/
def splitParagraph (O : Oracle) (w : ℚ) (b : Block) (availableHeight : ℚ) : SplitResult :=
  let words := splitWs b.text
  if words = [] then { fitsWords := 0, firstText := "", restText := "" }
  else
    if maxLinesOf O b availableHeight < 1 then
      { fitsWords := 0, firstText := "", restText := b.text }
    else
      let bn := bestPair O w b availableHeight
      { fitsWords := bn.2, firstText := bn.1, restText := joinWs (words.drop bn.2.toNat) }

theorem bestPair_count (O : Oracle) (w : ℚ) (b : Block) (avail : ℚ) :
    (bestPair O w b avail).2 = 0 ∨ 1 ≤ (bestPair O w b avail).2 := by
  unfold bestPair
  rcases growLoop_count O w (O.lineHeight (blockElem b "")) (maxLinesOf O b avail)
    (blockElem b "") (splitWs b.text) "" "" 0 0 (by omega) with hg | hg
  · split
    · split
      · right; omega
      · left; exact hg
    · left; exact hg
  · split
    · split
      · right; omega
      · right; exact hg
    · right; exact hg

theorem splitParagraph_shape_tfi (O : Oracle) (w : ℚ) (b : Block) (avail : ℚ)
    (h : (splitParagraph O w b avail).fitsWords ≠ 0) :
    1 ≤ (splitParagraph O w b avail).fitsWords ∧
      (splitParagraph O w b avail).restText =
        joinWs ((splitWs b.text).drop (splitParagraph O w b avail).fitsWords.toNat) ∧
      splitWs b.text ≠ [] := by
  by_cases h1 : splitWs b.text = []
  · exfalso; apply h; simp [splitParagraph, h1]
  · by_cases h2 : maxLinesOf O b avail < 1
    · exfalso; apply h; simp [splitParagraph, h1, h2]
    · have he : splitParagraph O w b avail =
          { fitsWords := (bestPair O w b avail).2, firstText := (bestPair O w b avail).1,
            restText := joinWs ((splitWs b.text).drop (bestPair O w b avail).2.toNat) } := by
        simp [splitParagraph, h1, h2]
      rw [he] at h ⊢
      rcases bestPair_count O w b avail with hc | hc
      · exact absurd hc h
      · exact ⟨hc, rfl, h1⟩

theorem splitParagraph_rest_lt_tfi (O : Oracle) (w : ℚ) (b : Block) (avail : ℚ)
    (h : (splitParagraph O w b avail).fitsWords ≠ 0) :
    wcount ((splitParagraph O w b avail).restText) < wcount b.text := by
  rcases splitParagraph_shape_tfi O w b avail h with ⟨h1, hrest, hne⟩
  rw [wcount, wcount, hrest, splitWs_joinWs_drop, List.length_drop]
  have : (splitWs b.text).length ≠ 0 := by
    intro hc; exact hne (List.eq_nil_of_length_eq_zero hc)
  omega

end TFI

namespace TFI

/-- The `while (queue.length > 0)` loop of `TextFlow.flow`
(`js/text-flow-intro.js`) for one region.  This variant skips
keep-with-next logic entirely ("let content flow naturally"): only the
single-block fit check, the heading `break`, and the paragraph split with
fragment re-measurement. -/
def flowLoop (O : Oracle) (w avail : ℚ) (used : ℚ) (queue : List Block) :
    List Placement × List Block :=
  match queue with
  | [] => ([], [])
  | block :: rest =>
    if avail - used ≤ 0 then ([], block :: rest)
    else
      let el := blockElem block block.text
      let h := O.measureNodes w [el]
      if h ≤ avail - used then
        let r := flowLoop O w avail (used + h) rest
        ({ els := [el], height := h } :: r.1, r.2)
      else if block.btype ≠ BType.paragraph then ([], block :: rest)
      else
        let split := splitParagraph O w block (avail - used)
        if split.fitsWords = 0 then ([], block :: rest)
        else
          let fragEl := blockElem block split.firstText
          let fragHeight := O.measureNodes w [fragEl]
          if fragHeight ≤ avail - used then
            let r := flowLoop O w avail (used + fragHeight)
              ({ block with text := split.restText } :: rest)
            ({ els := [fragEl], height := fragHeight } :: r.1, r.2)
          else ([], block :: rest)
termination_by queueSize queue
decreasing_by
  all_goals simp only [queueSize, List.map_cons, List.sum_cons]
  all_goals try omega
  all_goals have hlt := splitParagraph_rest_lt_tfi O w block (avail - used) (by assumption)
  all_goals omega

/-- The `for` loop over regions of `TextFlow.flow`
(`js/text-flow-intro.js`): the content sink is the region node itself (no
wrapper lookup); a region with non-positive metrics is skipped
(`continue`), otherwise the per-region loop runs with the sandbox width
set to the region's inner width. -/
def flowRegions (O : Oracle) : List Region → List Block → List (List Placement) × List Block
  | [], queue => ([], queue)
  | r :: rs, queue =>
    if r.availableHeight ≤ 0 ∨ r.innerWidth ≤ 0 then
      let t := flowRegions O rs queue
      ([] :: t.1, t.2)
    else
      let res := flowLoop O r.innerWidth r.availableHeight 0 queue
      let t := flowRegions O rs res.2
      (res.1 :: t.1, t.2)

/-- `TextFlow.flow` (`js/text-flow-intro.js`): early-return when there are
no blocks or regions, otherwise flow a fresh shallow copy of
`this.blocks` through the regions. -/
def flow (O : Oracle) (blocks : List Block) (regions : List Region) :
    List (List Placement) × List Block :=
  if blocks.isEmpty ∨ regions.isEmpty then ([], [])
  else
    let queue := blocks.map (fun b => { b with text := b.text })
    flowRegions O regions queue

end TFI

namespace TF

theorem flowLoop_nil (O : Oracle) (w avail used : ℚ) : flowLoop O w avail used [] = ([], []) := by
  rw [flowLoop]

theorem flowLoop_nospace (O : Oracle) (w avail used : ℚ) (block : Block) (rest : List Block)
    (h : avail - used ≤ 0) : flowLoop O w avail used (block :: rest) = ([], block :: rest) := by
  cases rest with
  | nil => rw [flowLoop]; simp [h]
  | cons next rest2 => rw [flowLoop]; simp [h]

theorem flowLoop_pair_fit (O : Oracle) (w avail used : ℚ) (block next : Block)
    (rest2 : List Block) (hrem : ¬ avail - used ≤ 0) (hkw : block.keepWithNext = true)
    (hfit : O.measureNodes w [blockElem block block.text, blockElem next next.text] ≤
      avail - used) :
    flowLoop O w avail used (block :: next :: rest2) =
      ({ els := [blockElem block block.text, blockElem next next.text],
         height := O.measureNodes w [blockElem block block.text, blockElem next next.text] } ::
          (flowLoop O w avail
            (used + O.measureNodes w [blockElem block block.text, blockElem next next.text])
            rest2).1,
        (flowLoop O w avail
          (used + O.measureNodes w [blockElem block block.text, blockElem next next.text])
          rest2).2) := by
  conv_lhs => rw [flowLoop]
  simp [hrem, hkw, hfit]

theorem flowLoop_pair_nofit (O : Oracle) (w avail used : ℚ) (block next : Block)
    (rest2 : List Block) (hrem : ¬ avail - used ≤ 0) (hkw : block.keepWithNext = true)
    (hfit : ¬ O.measureNodes w [blockElem block block.text, blockElem next next.text] ≤
      avail - used) :
    flowLoop O w avail used (block :: next :: rest2) = ([], block :: next :: rest2) := by
  conv_lhs => rw [flowLoop]
  simp [hrem, hkw, hfit]

theorem flowLoop_single_fit (O : Oracle) (w avail used : ℚ) (block : Block) (rest : List Block)
    (hrem : ¬ avail - used ≤ 0) (hsingle : block.keepWithNext = false ∨ rest = [])
    (hfit : O.measureNodes w [blockElem block block.text] ≤ avail - used) :
    flowLoop O w avail used (block :: rest) =
      ({ els := [blockElem block block.text],
         height := O.measureNodes w [blockElem block block.text] } ::
          (flowLoop O w avail (used + O.measureNodes w [blockElem block block.text]) rest).1,
        (flowLoop O w avail (used + O.measureNodes w [blockElem block block.text]) rest).2) := by
  rcases hsingle with hkw | hrest
  · cases rest with
    | nil => conv_lhs => rw [flowLoop]
             simp [hrem, hfit]
    | cons next rest2 =>
        conv_lhs => rw [flowLoop]
        simp [hrem, hkw, hfit]
  · subst hrest
    conv_lhs => rw [flowLoop]
    simp [hrem, hfit]

theorem flowLoop_heading_break (O : Oracle) (w avail used : ℚ) (block : Block)
    (rest : List Block) (hrem : ¬ avail - used ≤ 0)
    (hsingle : block.keepWithNext = false ∨ rest = [])
    (hfit : ¬ O.measureNodes w [blockElem block block.text] ≤ avail - used)
    (hb : block.btype ≠ BType.paragraph) :
    flowLoop O w avail used (block :: rest) = ([], block :: rest) := by
  rcases hsingle with hkw | hrest
  · cases rest with
    | nil => conv_lhs => rw [flowLoop]
             simp [hrem, hfit, hb]
    | cons next rest2 =>
        conv_lhs => rw [flowLoop]
        simp [hrem, hkw, hfit, hb]
  · subst hrest
    conv_lhs => rw [flowLoop]
    simp [hrem, hfit, hb]

theorem flowLoop_split_zero (O : Oracle) (w avail used : ℚ) (block : Block)
    (rest : List Block) (hrem : ¬ avail - used ≤ 0)
    (hsingle : block.keepWithNext = false ∨ rest = [])
    (hfit : ¬ O.measureNodes w [blockElem block block.text] ≤ avail - used)
    (hb : block.btype = BType.paragraph)
    (hz : (splitParagraph O w block (avail - used)).fitsWords = 0) :
    flowLoop O w avail used (block :: rest) = ([], block :: rest) := by
  rcases hsingle with hkw | hrest
  · cases rest with
    | nil => conv_lhs => rw [flowLoop]
             simp [hrem, hfit, hb, hz]
    | cons next rest2 =>
        conv_lhs => rw [flowLoop]
        simp [hrem, hkw, hfit, hb, hz]
  · subst hrest
    conv_lhs => rw [flowLoop]
    simp [hrem, hfit, hb, hz]

theorem flowLoop_frag_fit (O : Oracle) (w avail used : ℚ) (block : Block)
    (rest : List Block) (hrem : ¬ avail - used ≤ 0)
    (hsingle : block.keepWithNext = false ∨ rest = [])
    (hfit : ¬ O.measureNodes w [blockElem block block.text] ≤ avail - used)
    (hb : block.btype = BType.paragraph)
    (hz : (splitParagraph O w block (avail - used)).fitsWords ≠ 0)
    (hf : O.measureNodes w
        [blockElem block (splitParagraph O w block (avail - used)).firstText] ≤ avail - used) :
    flowLoop O w avail used (block :: rest) =
      ({ els := [blockElem block (splitParagraph O w block (avail - used)).firstText],
         height := O.measureNodes w
           [blockElem block (splitParagraph O w block (avail - used)).firstText] } ::
          (flowLoop O w avail
            (used + O.measureNodes w
              [blockElem block (splitParagraph O w block (avail - used)).firstText])
            ({ block with text := (splitParagraph O w block (avail - used)).restText } :: rest)).1,
        (flowLoop O w avail
          (used + O.measureNodes w
            [blockElem block (splitParagraph O w block (avail - used)).firstText])
          ({ block with text := (splitParagraph O w block (avail - used)).restText } :: rest)).2) := by
  rcases hsingle with hkw | hrest
  · cases rest with
    | nil => conv_lhs => rw [flowLoop]
             simp [hrem, hfit, hb, hz, hf]
    | cons next rest2 =>
        conv_lhs => rw [flowLoop]
        simp [hrem, hkw, hfit, hb, hz, hf]
  · subst hrest
    conv_lhs => rw [flowLoop]
    simp [hrem, hfit, hb, hz, hf]

theorem flowLoop_frag_nofit (O : Oracle) (w avail used : ℚ) (block : Block)
    (rest : List Block) (hrem : ¬ avail - used ≤ 0)
    (hsingle : block.keepWithNext = false ∨ rest = [])
    (hfit : ¬ O.measureNodes w [blockElem block block.text] ≤ avail - used)
    (hb : block.btype = BType.paragraph)
    (hz : (splitParagraph O w block (avail - used)).fitsWords ≠ 0)
    (hf : ¬ O.measureNodes w
        [blockElem block (splitParagraph O w block (avail - used)).firstText] ≤ avail - used) :
    flowLoop O w avail used (block :: rest) = ([], block :: rest) := by
  rcases hsingle with hkw | hrest
  · cases rest with
    | nil => conv_lhs => rw [flowLoop]
             simp [hrem, hfit, hb, hz, hf]
    | cons next rest2 =>
        conv_lhs => rw [flowLoop]
        simp [hrem, hkw, hfit, hb, hz, hf]
  · subst hrest
    conv_lhs => rw [flowLoop]
    simp [hrem, hfit, hb, hz, hf]

end TF

namespace TFI

theorem flowLoop_nil_tfi (O : Oracle) (w avail used : ℚ) : flowLoop O w avail used [] = ([], []) := by
  rw [flowLoop]

theorem flowLoop_nospace_tfi (O : Oracle) (w avail used : ℚ) (block : Block) (rest : List Block)
    (h : avail - used ≤ 0) : flowLoop O w avail used (block :: rest) = ([], block :: rest) := by
  rw [flowLoop]
  simp [h]

theorem flowLoop_single_fit_tfi (O : Oracle) (w avail used : ℚ) (block : Block) (rest : List Block)
    (hrem : ¬ avail - used ≤ 0)
    (hfit : O.measureNodes w [blockElem block block.text] ≤ avail - used) :
    flowLoop O w avail used (block :: rest) =
      ({ els := [blockElem block block.text],
         height := O.measureNodes w [blockElem block block.text] } ::
          (flowLoop O w avail (used + O.measureNodes w [blockElem block block.text]) rest).1,
        (flowLoop O w avail (used + O.measureNodes w [blockElem block block.text]) rest).2) := by
  conv_lhs => rw [flowLoop]
  simp [hrem, hfit]

theorem flowLoop_heading_break_tfi (O : Oracle) (w avail used : ℚ) (block : Block)
    (rest : List Block) (hrem : ¬ avail - used ≤ 0)
    (hfit : ¬ O.measureNodes w [blockElem block block.text] ≤ avail - used)
    (hb : block.btype ≠ BType.paragraph) :
    flowLoop O w avail used (block :: rest) = ([], block :: rest) := by
  conv_lhs => rw [flowLoop]
  simp [hrem, hfit, hb]

theorem flowLoop_split_zero_tfi (O : Oracle) (w avail used : ℚ) (block : Block)
    (rest : List Block) (hrem : ¬ avail - used ≤ 0)
    (hfit : ¬ O.measureNodes w [blockElem block block.text] ≤ avail - used)
    (hb : block.btype = BType.paragraph)
    (hz : (splitParagraph O w block (avail - used)).fitsWords = 0) :
    flowLoop O w avail used (block :: rest) = ([], block :: rest) := by
  conv_lhs => rw [flowLoop]
  simp [hrem, hfit, hb, hz]

theorem flowLoop_frag_fit_tfi (O : Oracle) (w avail used : ℚ) (block : Block)
    (rest : List Block) (hrem : ¬ avail - used ≤ 0)
    (hfit : ¬ O.measureNodes w [blockElem block block.text] ≤ avail - used)
    (hb : block.btype = BType.paragraph)
    (hz : (splitParagraph O w block (avail - used)).fitsWords ≠ 0)
    (hf : O.measureNodes w
        [blockElem block (splitParagraph O w block (avail - used)).firstText] ≤ avail - used) :
    flowLoop O w avail used (block :: rest) =
      ({ els := [blockElem block (splitParagraph O w block (avail - used)).firstText],
         height := O.measureNodes w
           [blockElem block (splitParagraph O w block (avail - used)).firstText] } ::
          (flowLoop O w avail
            (used + O.measureNodes w
              [blockElem block (splitParagraph O w block (avail - used)).firstText])
            ({ block with text := (splitParagraph O w block (avail - used)).restText } :: rest)).1,
        (flowLoop O w avail
          (used + O.measureNodes w
            [blockElem block (splitParagraph O w block (avail - used)).firstText])
          ({ block with text := (splitParagraph O w block (avail - used)).restText } :: rest)).2) := by
  conv_lhs => rw [flowLoop]
  simp [hrem, hfit, hb, hz, hf]

theorem flowLoop_frag_nofit_tfi (O : Oracle) (w avail used : ℚ) (block : Block)
    (rest : List Block) (hrem : ¬ avail - used ≤ 0)
    (hfit : ¬ O.measureNodes w [blockElem block block.text] ≤ avail - used)
    (hb : block.btype = BType.paragraph)
    (hz : (splitParagraph O w block (avail - used)).fitsWords ≠ 0)
    (hf : ¬ O.measureNodes w
        [blockElem block (splitParagraph O w block (avail - used)).firstText] ≤ avail - used) :
    flowLoop O w avail used (block :: rest) = ([], block :: rest) := by
  conv_lhs => rw [flowLoop]
  simp [hrem, hfit, hb, hz, hf]

end TFI

/-! ## Small accounting lemmas -/

@[simp]
theorem sumHeights_nil : sumHeights [] = 0 := rfl

@[simp]
theorem sumHeights_cons (p : Placement) (ps : List Placement) :
    sumHeights (p :: ps) = p.height + sumHeights ps := by
  simp [sumHeights]

@[simp]
theorem placedWords_nil : placedWords [] = [] := rfl

@[simp]
theorem placedWords_cons (p : Placement) (ps : List Placement) :
    placedWords (p :: ps) = p.els.flatMap (fun e => splitWs e.text) ++ placedWords ps := by
  simp [placedWords]

@[simp]
theorem queueWords_nil : queueWords [] = [] := rfl

@[simp]
theorem queueWords_cons (b : Block) (q : List Block) :
    queueWords (b :: q) = splitWs b.text ++ queueWords q := by
  simp [queueWords]

theorem text_blockElem_self (b : Block) : (blockElem b b.text).text = b.text := by
  cases hb : b.btype <;> simp [blockElem, hb, Elem.text]

theorem text_blockElem_para (b : Block) (t : String) (h : b.btype = BType.paragraph) :
    (blockElem b t).text = t := by
  simp [blockElem, h, Elem.text]

theorem blockElem_not_heading (b : Block) (t : String) (h : b.btype = BType.paragraph)
    (l : ℚ) (s : String) : blockElem b t ≠ Elem.heading l s := by
  simp [blockElem, h]

theorem blockElem_heading_inv (b : Block) (s : String) (l : ℚ) (t : String)
    (h : blockElem b s = Elem.heading l t) :
    b.btype = BType.heading ∧ t = b.text ∧ l = clampLevel b.level := by
  cases hb : b.btype
  · rw [blockElem, hb] at h
    simp only [Elem.heading.injEq] at h
    exact ⟨rfl, h.2.symm, h.1.symm⟩
  · rw [blockElem, hb] at h
    simp at h

namespace TF

/-- Combined loop invariants of the per-region flow loop (`js/intro.js`):
(a) the height accounting never exceeds the available height; (b) the
placed words followed by the remaining queue words are exactly the
incoming queue words; (c) any placed heading element carries the complete
text (and clamped level) of a heading block of the incoming queue; (d)
heading blocks left in the queue come from the incoming queue. -/
theorem flowLoop_master (O : Oracle) (w avail : ℚ) :
    ∀ (n : ℕ) (used : ℚ) (queue : List Block), queueSize queue = n →
      (used ≤ avail → used + sumHeights (flowLoop O w avail used queue).1 ≤ avail) ∧
      placedWords (flowLoop O w avail used queue).1 ++
          queueWords (flowLoop O w avail used queue).2 = queueWords queue ∧
      (∀ p ∈ (flowLoop O w avail used queue).1, ∀ e ∈ p.els, ∀ l t, e = Elem.heading l t →
        ∃ b, b ∈ queue ∧ b.btype = BType.heading ∧ t = b.text ∧ l = clampLevel b.level) ∧
      (∀ b ∈ (flowLoop O w avail used queue).2, b.btype = BType.heading → b ∈ queue) := by
  intro n
  induction n using Nat.strong_induction_on with
  | _ n ih =>
    intro used queue hn
    cases queue with
    | nil =>
      rw [flowLoop_nil]
      exact ⟨fun h => by simpa using h, by simp, by simp, fun b hb _ => hb⟩
    | cons block rest =>
      by_cases hrem : avail - used ≤ 0
      · rw [flowLoop_nospace O w avail used block rest hrem]
        exact ⟨fun h => by simpa using h, by simp, by simp, fun b hb _ => hb⟩
      · by_cases hpair : block.keepWithNext = true ∧ rest ≠ []
        · obtain ⟨hkw, hne⟩ := hpair
          cases rest with
          | nil => exact absurd rfl hne
          | cons next rest2 =>
            by_cases hfit : O.measureNodes w
                [blockElem block block.text, blockElem next next.text] ≤ avail - used
            · rw [flowLoop_pair_fit O w avail used block next rest2 hrem hkw hfit]
              have hsz : queueSize rest2 < n := by
                subst hn; simp only [queueSize, List.map_cons, List.sum_cons]; omega
              obtain ⟨iha, ihw, ihh, ihq⟩ := ih (queueSize rest2) hsz
                (used + O.measureNodes w [blockElem block block.text, blockElem next next.text])
                rest2 rfl
              refine ⟨?_, ?_, ?_, ?_⟩
              · intro hu
                have := iha (by linarith)
                simp only [sumHeights_cons]
                linarith
              · simp only [placedWords_cons, List.flatMap_cons, List.flatMap_nil,
                  List.append_nil, text_blockElem_self, List.append_assoc, queueWords_cons]
                rw [ihw]
              · intro p hp e he l t het
                rcases List.mem_cons.mp hp with hp | hp
                · subst hp
                  rcases List.mem_cons.mp he with he | he
                  · subst he
                    obtain ⟨hbh, hbt, hbl⟩ := blockElem_heading_inv block block.text l t het
                    exact ⟨block, List.mem_cons_self _ _, hbh, hbt, hbl⟩
                  · rcases List.mem_cons.mp he with he | he
                    · subst he
                      obtain ⟨hbh, hbt, hbl⟩ := blockElem_heading_inv next next.text l t het
                      exact ⟨next, List.mem_cons_of_mem _ (List.mem_cons_self _ _), hbh, hbt, hbl⟩
                    · simp at he
                · obtain ⟨b, hb1, hb2, hb3⟩ := ihh p hp e he l t het
                  exact ⟨b, List.mem_cons_of_mem _ (List.mem_cons_of_mem _ hb1), hb2, hb3⟩
              · intro b hb hh
                exact List.mem_cons_of_mem _ (List.mem_cons_of_mem _ (ihq b hb hh))
            · rw [flowLoop_pair_nofit O w avail used block next rest2 hrem hkw hfit]
              exact ⟨fun h => by simpa using h, by simp, by simp, fun b hb _ => hb⟩
        · have hsingle : block.keepWithNext = false ∨ rest = [] := by
            by_cases hk : block.keepWithNext = true
            · right; by_contra hr; exact hpair ⟨hk, hr⟩
            · left; simpa using hk
          by_cases hfit1 : O.measureNodes w [blockElem block block.text] ≤ avail - used
          · rw [flowLoop_single_fit O w avail used block rest hrem hsingle hfit1]
            have hsz : queueSize rest < n := by
              subst hn; simp only [queueSize, List.map_cons, List.sum_cons]; omega
            obtain ⟨iha, ihw, ihh, ihq⟩ := ih (queueSize rest) hsz
              (used + O.measureNodes w [blockElem block block.text]) rest rfl
            refine ⟨?_, ?_, ?_, ?_⟩
            · intro hu
              have := iha (by linarith)
              simp only [sumHeights_cons]
              linarith
            · simp only [placedWords_cons, List.flatMap_cons, List.flatMap_nil,
                List.append_nil, text_blockElem_self, List.append_assoc, queueWords_cons]
              rw [ihw]
            · intro p hp e he l t het
              rcases List.mem_cons.mp hp with hp | hp
              · subst hp
                rcases List.mem_cons.mp he with he | he
                · subst he
                  obtain ⟨hbh, hbt, hbl⟩ := blockElem_heading_inv block block.text l t het
                  exact ⟨block, List.mem_cons_self _ _, hbh, hbt, hbl⟩
                · simp at he
              · obtain ⟨b, hb1, hb2, hb3⟩ := ihh p hp e he l t het
                exact ⟨b, List.mem_cons_of_mem _ hb1, hb2, hb3⟩
            · intro b hb hh
              exact List.mem_cons_of_mem _ (ihq b hb hh)
          · by_cases hbt : block.btype = BType.paragraph
            · by_cases hz : (splitParagraph O w block (avail - used)).fitsWords = 0
              · rw [flowLoop_split_zero O w avail used block rest hrem hsingle hfit1 hbt hz]
                exact ⟨fun h => by simpa using h, by simp, by simp, fun b hb _ => hb⟩
              · by_cases hf : O.measureNodes w
                    [blockElem block (splitParagraph O w block (avail - used)).firstText] ≤
                    avail - used
                · rw [flowLoop_frag_fit O w avail used block rest hrem hsingle hfit1 hbt hz hf]
                  obtain ⟨k, hk1, hkn, hfw, hfirst, hrest'⟩ :=
                    splitParagraph_shape O w block (avail - used) hz
                  have hsz : queueSize
                      ({ block with text := (splitParagraph O w block (avail - used)).restText }
                        :: rest) < n := by
                    subst hn
                    simp only [queueSize, List.map_cons, List.sum_cons]
                    have := splitParagraph_rest_lt O w block (avail - used) hz
                    omega
                  obtain ⟨iha, ihw, ihh, ihq⟩ := ih _ hsz
                    (used + O.measureNodes w
                      [blockElem block (splitParagraph O w block (avail - used)).firstText])
                    ({ block with text := (splitParagraph O w block (avail - used)).restText }
                      :: rest) rfl
                  refine ⟨?_, ?_, ?_, ?_⟩
                  · intro hu
                    have := iha (by linarith)
                    simp only [sumHeights_cons]
                    linarith
                  · have hels : (blockElem block
                        (splitParagraph O w block (avail - used)).firstText).text =
                        (splitParagraph O w block (avail - used)).firstText :=
                      text_blockElem_para _ _ hbt
                    have hq' : queueWords
                        ({ block with text := (splitParagraph O w block (avail - used)).restText }
                          :: rest) =
                        splitWs (splitParagraph O w block (avail - used)).restText ++
                          queueWords rest := by
                      simp [queueWords]
                    rw [hq'] at ihw
                    simp only [placedWords_cons, List.flatMap_cons, List.flatMap_nil,
                      List.append_nil, hels, List.append_assoc, queueWords_cons]
                    rw [ihw, hfirst, hrest', splitWs_joinWs_take, splitWs_joinWs_drop,
                      ← List.append_assoc, List.take_append_drop]
                  · intro p hp e he l t het
                    rcases List.mem_cons.mp hp with hp | hp
                    · subst hp
                      rcases List.mem_cons.mp he with he | he
                      · subst he
                        exact absurd het (blockElem_not_heading block _ hbt l t)
                      · simp at he
                    · obtain ⟨b, hb1, hb2, hb3⟩ := ihh p hp e he l t het
                      rcases List.mem_cons.mp hb1 with hb1 | hb1
                      · exfalso
                        have : b.btype = BType.paragraph := by rw [hb1]; exact hbt
                        rw [this] at hb2; exact absurd hb2 (by simp)
                      · exact ⟨b, List.mem_cons_of_mem _ hb1, hb2, hb3⟩
                  · intro b hb hh
                    have := ihq b hb hh
                    rcases List.mem_cons.mp this with h1 | h1
                    · exfalso
                      have : b.btype = BType.paragraph := by rw [h1]; exact hbt
                      rw [this] at hh; exact absurd hh (by simp)
                    · exact List.mem_cons_of_mem _ h1
                · rw [flowLoop_frag_nofit O w avail used block rest hrem hsingle hfit1 hbt hz hf]
                  exact ⟨fun h => by simpa using h, by simp, by simp, fun b hb _ => hb⟩
            · rw [flowLoop_heading_break O w avail used block rest hrem hsingle hfit1 hbt]
              exact ⟨fun h => by simpa using h, by simp, by simp, fun b hb _ => hb⟩

end TF

namespace TFI

/-- Combined loop invariants of the per-region flow loop
(`js/text-flow-intro.js`): height accounting never exceeds the available
height; any placed heading element carries the complete text (and clamped
level) of a heading block of the incoming queue; heading blocks left in
the queue come from the incoming queue. -/
theorem flowLoop_master_tfi (O : Oracle) (w avail : ℚ) :
    ∀ (n : ℕ) (used : ℚ) (queue : List Block), queueSize queue = n →
      (used ≤ avail → used + sumHeights (flowLoop O w avail used queue).1 ≤ avail) ∧
      (∀ p ∈ (flowLoop O w avail used queue).1, ∀ e ∈ p.els, ∀ l t, e = Elem.heading l t →
        ∃ b, b ∈ queue ∧ b.btype = BType.heading ∧ t = b.text ∧ l = clampLevel b.level) ∧
      (∀ b ∈ (flowLoop O w avail used queue).2, b.btype = BType.heading → b ∈ queue) := by
  intro n
  induction n using Nat.strong_induction_on with
  | _ n ih =>
    intro used queue hn
    cases queue with
    | nil =>
      rw [flowLoop_nil_tfi]
      exact ⟨fun h => by simpa using h, by simp, by simp⟩
    | cons block rest =>
      by_cases hrem : avail - used ≤ 0
      · rw [flowLoop_nospace_tfi O w avail used block rest hrem]
        exact ⟨fun h => by simpa using h, by simp, fun b hb _ => hb⟩
      · by_cases hfit1 : O.measureNodes w [blockElem block block.text] ≤ avail - used
        · rw [flowLoop_single_fit_tfi O w avail used block rest hrem hfit1]
          have hsz : queueSize rest < n := by
            subst hn; simp only [queueSize, List.map_cons, List.sum_cons]; omega
          obtain ⟨iha, ihh, ihq⟩ := ih (queueSize rest) hsz
            (used + O.measureNodes w [blockElem block block.text]) rest rfl
          refine ⟨?_, ?_, ?_⟩
          · intro hu
            have := iha (by linarith)
            simp only [sumHeights_cons]
            linarith
          · intro p hp e he l t het
            rcases List.mem_cons.mp hp with hp | hp
            · subst hp
              rcases List.mem_cons.mp he with he | he
              · subst he
                obtain ⟨hbh, hbt, hbl⟩ := blockElem_heading_inv block block.text l t het
                exact ⟨block, List.mem_cons_self _ _, hbh, hbt, hbl⟩
              · simp at he
            · obtain ⟨b, hb1, hb2, hb3⟩ := ihh p hp e he l t het
              exact ⟨b, List.mem_cons_of_mem _ hb1, hb2, hb3⟩
          · intro b hb hh
            exact List.mem_cons_of_mem _ (ihq b hb hh)
        · by_cases hbt : block.btype = BType.paragraph
          · by_cases hz : (splitParagraph O w block (avail - used)).fitsWords = 0
            · rw [flowLoop_split_zero_tfi O w avail used block rest hrem hfit1 hbt hz]
              exact ⟨fun h => by simpa using h, by simp, fun b hb _ => hb⟩
            · by_cases hf : O.measureNodes w
                  [blockElem block (splitParagraph O w block (avail - used)).firstText] ≤
                  avail - used
              · rw [flowLoop_frag_fit_tfi O w avail used block rest hrem hfit1 hbt hz hf]
                have hsz : queueSize
                    ({ block with text := (splitParagraph O w block (avail - used)).restText }
                      :: rest) < n := by
                  subst hn
                  simp only [queueSize, List.map_cons, List.sum_cons]
                  have := splitParagraph_rest_lt_tfi O w block (avail - used) hz
                  omega
                obtain ⟨iha, ihh, ihq⟩ := ih _ hsz
                  (used + O.measureNodes w
                    [blockElem block (splitParagraph O w block (avail - used)).firstText])
                  ({ block with text := (splitParagraph O w block (avail - used)).restText }
                    :: rest) rfl
                refine ⟨?_, ?_, ?_⟩
                · intro hu
                  have := iha (by linarith)
                  simp only [sumHeights_cons]
                  linarith
                · intro p hp e he l t het
                  rcases List.mem_cons.mp hp with hp | hp
                  · subst hp
                    rcases List.mem_cons.mp he with he | he
                    · subst he
                      exact absurd het (blockElem_not_heading block _ hbt l t)
                    · simp at he
                  · obtain ⟨b, hb1, hb2, hb3⟩ := ihh p hp e he l t het
                    rcases List.mem_cons.mp hb1 with hb1 | hb1
                    · exfalso
                      have : b.btype = BType.paragraph := by rw [hb1]; exact hbt
                      rw [this] at hb2; exact absurd hb2 (by simp)
                    · exact ⟨b, List.mem_cons_of_mem _ hb1, hb2, hb3⟩
                · intro b hb hh
                  have := ihq b hb hh
                  rcases List.mem_cons.mp this with h1 | h1
                  · exfalso
                    have : b.btype = BType.paragraph := by rw [h1]; exact hbt
                    rw [this] at hh; exact absurd hh (by simp)
                  · exact List.mem_cons_of_mem _ h1
              · rw [flowLoop_frag_nofit_tfi O w avail used block rest hrem hfit1 hbt hz hf]
                exact ⟨fun h => by simpa using h, by simp, fun b hb _ => hb⟩
          · rw [flowLoop_heading_break_tfi O w avail used block rest hrem hfit1 hbt]
            exact ⟨fun h => by simpa using h, by simp, fun b hb _ => hb⟩

end TFI

/-- All words placed across a pass, region by region, in order. -/
def placedWordsAll (pss : List (List Placement)) : List String :=
  pss.flatMap placedWords

@[simp]
theorem placedWordsAll_nil : placedWordsAll [] = [] := rfl

@[simp]
theorem placedWordsAll_cons (ps : List Placement) (pss : List (List Placement)) :
    placedWordsAll (ps :: pss) = placedWords ps ++ placedWordsAll pss := by
  simp [placedWordsAll]

namespace TF

theorem flowRegions_nil (O : Oracle) (q : List Block) : flowRegions O [] q = ([], q) := by
  rw [flowRegions.eq_def]

theorem flowRegions_skip_nowrap (O : Oracle) (r : Region) (rs : List Region) (q : List Block)
    (h : r.hasWrap = false) :
    flowRegions O (r :: rs) q = ([] :: (flowRegions O rs q).1, (flowRegions O rs q).2) := by
  rw [flowRegions.eq_def]
  simp [h]

theorem flowRegions_skip_dims (O : Oracle) (r : Region) (rs : List Region) (q : List Block)
    (h : r.availableHeight ≤ 0 ∨ r.innerWidth ≤ 0) :
    flowRegions O (r :: rs) q = ([] :: (flowRegions O rs q).1, (flowRegions O rs q).2) := by
  rw [flowRegions.eq_def]
  by_cases h1 : r.hasWrap = false
  · simp [h1]
  · simp [h1, h]

theorem flowRegions_run (O : Oracle) (r : Region) (rs : List Region) (q : List Block)
    (h1 : ¬ r.hasWrap = false) (h2 : ¬ (r.availableHeight ≤ 0 ∨ r.innerWidth ≤ 0)) :
    flowRegions O (r :: rs) q =
      ((flowLoop O r.innerWidth r.availableHeight 0 q).1 ::
        (flowRegions O rs (flowLoop O r.innerWidth r.availableHeight 0 q).2).1,
       (flowRegions O rs (flowLoop O r.innerWidth r.availableHeight 0 q).2).2) := by
  rw [flowRegions.eq_def]
  simp [h1, h2]

theorem flowRegions_words (O : Oracle) :
    ∀ (rs : List Region) (q : List Block),
      placedWordsAll (flowRegions O rs q).1 ++ queueWords (flowRegions O rs q).2 =
        queueWords q := by
  intro rs
  induction rs with
  | nil => intro q; rw [flowRegions_nil]; simp
  | cons r rs ih =>
    intro q
    by_cases h1 : r.hasWrap = false
    · rw [flowRegions_skip_nowrap O r rs q h1]
      simpa using ih q
    · by_cases h2 : r.availableHeight ≤ 0 ∨ r.innerWidth ≤ 0
      · rw [flowRegions_skip_dims O r rs q h2]
        simpa using ih q
      · rw [flowRegions_run O r rs q h1 h2]
        simp only [placedWordsAll_cons, List.append_assoc]
        rw [ih]
        exact (flowLoop_master O r.innerWidth r.availableHeight (queueSize q) 0 q rfl).2.1

theorem flowRegions_overflow (O : Oracle) :
    ∀ (rs : List Region) (q : List Block) (i : ℕ) (hi : i < rs.length)
      (hj : i < (flowRegions O rs q).1.length),
      0 ≤ rs[i].availableHeight →
        sumHeights (flowRegions O rs q).1[i] ≤ rs[i].availableHeight := by
  intro rs
  induction rs with
  | nil => intro q i hi; simp at hi
  | cons r rs ih =>
    intro q i hi hj hpos
    by_cases h1 : r.hasWrap = false
    · simp only [flowRegions_skip_nowrap O r rs q h1] at hj ⊢
      cases i with
      | zero => simpa using hpos
      | succ i => exact ih q i (by simpa using hi) (by simpa using hj) (by simpa using hpos)
    · by_cases h2 : r.availableHeight ≤ 0 ∨ r.innerWidth ≤ 0
      · simp only [flowRegions_skip_dims O r rs q h2] at hj ⊢
        cases i with
        | zero => simpa using hpos
        | succ i => exact ih q i (by simpa using hi) (by simpa using hj) (by simpa using hpos)
      · simp only [flowRegions_run O r rs q h1 h2] at hj ⊢
        cases i with
        | zero =>
          simp only [List.getElem_cons_zero]
          have := ((flowLoop_master O r.innerWidth r.availableHeight (queueSize q) 0 q rfl).1)
            (by simpa using hpos)
          simpa using this
        | succ i =>
          exact ih _ i (by simpa using hi) (by simpa using hj) (by simpa using hpos)

theorem flowRegions_headings (O : Oracle) :
    ∀ (rs : List Region) (q : List Block),
      (∀ ps ∈ (flowRegions O rs q).1, ∀ p ∈ ps, ∀ e ∈ p.els, ∀ l t, e = Elem.heading l t →
        ∃ b, b ∈ q ∧ b.btype = BType.heading ∧ t = b.text ∧ l = clampLevel b.level) ∧
      (∀ b ∈ (flowRegions O rs q).2, b.btype = BType.heading → b ∈ q) := by
  intro rs
  induction rs with
  | nil =>
    intro q
    rw [flowRegions_nil]
    constructor
    · intro ps hps; simp at hps
    · intro b hb _; exact hb
  | cons r rs ih =>
    intro q
    by_cases h1 : r.hasWrap = false
    · rw [flowRegions_skip_nowrap O r rs q h1]
      constructor
      · intro ps hps p hp e he l t het
        rcases List.mem_cons.mp hps with hps | hps
        · subst hps; simp at hp
        · exact (ih q).1 ps hps p hp e he l t het
      · exact (ih q).2
    · by_cases h2 : r.availableHeight ≤ 0 ∨ r.innerWidth ≤ 0
      · rw [flowRegions_skip_dims O r rs q h2]
        constructor
        · intro ps hps p hp e he l t het
          rcases List.mem_cons.mp hps with hps | hps
          · subst hps; simp at hp
          · exact (ih q).1 ps hps p hp e he l t het
        · exact (ih q).2
      · rw [flowRegions_run O r rs q h1 h2]
        have hm := flowLoop_master O r.innerWidth r.availableHeight (queueSize q) 0 q rfl
        constructor
        · intro ps hps p hp e he l t het
          rcases List.mem_cons.mp hps with hps | hps
          · subst hps
            exact hm.2.2.1 p hp e he l t het
          · obtain ⟨b, hb1, hb2, hb3, hb4⟩ :=
              (ih (flowLoop O r.innerWidth r.availableHeight 0 q).2).1 ps hps p hp e he l t het
            exact ⟨b, hm.2.2.2 b hb1 hb2, hb2, hb3, hb4⟩
        · intro b hb hh
          exact hm.2.2.2 b ((ih (flowLoop O r.innerWidth r.availableHeight 0 q).2).2 b hb hh) hh

end TF

namespace TFI

theorem flowRegions_nil_tfi (O : Oracle) (q : List Block) : flowRegions O [] q = ([], q) := by
  rw [flowRegions.eq_def]

theorem flowRegions_skip_dims_tfi (O : Oracle) (r : Region) (rs : List Region) (q : List Block)
    (h : r.availableHeight ≤ 0 ∨ r.innerWidth ≤ 0) :
    flowRegions O (r :: rs) q = ([] :: (flowRegions O rs q).1, (flowRegions O rs q).2) := by
  rw [flowRegions.eq_def]
  simp [h]

theorem flowRegions_run_tfi (O : Oracle) (r : Region) (rs : List Region) (q : List Block)
    (h2 : ¬ (r.availableHeight ≤ 0 ∨ r.innerWidth ≤ 0)) :
    flowRegions O (r :: rs) q =
      ((flowLoop O r.innerWidth r.availableHeight 0 q).1 ::
        (flowRegions O rs (flowLoop O r.innerWidth r.availableHeight 0 q).2).1,
       (flowRegions O rs (flowLoop O r.innerWidth r.availableHeight 0 q).2).2) := by
  rw [flowRegions.eq_def]
  simp [h2]

theorem flowRegions_overflow_tfi (O : Oracle) :
    ∀ (rs : List Region) (q : List Block) (i : ℕ) (hi : i < rs.length)
      (hj : i < (flowRegions O rs q).1.length),
      0 ≤ rs[i].availableHeight →
        sumHeights (flowRegions O rs q).1[i] ≤ rs[i].availableHeight := by
  intro rs
  induction rs with
  | nil => intro q i hi; simp at hi
  | cons r rs ih =>
    intro q i hi hj hpos
    by_cases h2 : r.availableHeight ≤ 0 ∨ r.innerWidth ≤ 0
    · simp only [flowRegions_skip_dims_tfi O r rs q h2] at hj ⊢
      cases i with
      | zero => simpa using hpos
      | succ i => exact ih q i (by simpa using hi) (by simpa using hj) (by simpa using hpos)
    · simp only [flowRegions_run_tfi O r rs q h2] at hj ⊢
      cases i with
      | zero =>
        simp only [List.getElem_cons_zero]
        have := ((flowLoop_master_tfi O r.innerWidth r.availableHeight (queueSize q) 0 q rfl).1)
          (by simpa using hpos)
        simpa using this
      | succ i =>
        exact ih _ i (by simpa using hi) (by simpa using hj) (by simpa using hpos)

theorem flowRegions_headings_tfi (O : Oracle) :
    ∀ (rs : List Region) (q : List Block),
      (∀ ps ∈ (flowRegions O rs q).1, ∀ p ∈ ps, ∀ e ∈ p.els, ∀ l t, e = Elem.heading l t →
        ∃ b, b ∈ q ∧ b.btype = BType.heading ∧ t = b.text ∧ l = clampLevel b.level) ∧
      (∀ b ∈ (flowRegions O rs q).2, b.btype = BType.heading → b ∈ q) := by
  intro rs
  induction rs with
  | nil =>
    intro q
    rw [flowRegions_nil_tfi]
    constructor
    · intro ps hps; simp at hps
    · intro b hb _; exact hb
  | cons r rs ih =>
    intro q
    by_cases h2 : r.availableHeight ≤ 0 ∨ r.innerWidth ≤ 0
    · rw [flowRegions_skip_dims_tfi O r rs q h2]
      constructor
      · intro ps hps p hp e he l t het
        rcases List.mem_cons.mp hps with hps | hps
        · subst hps; simp at hp
        · exact (ih q).1 ps hps p hp e he l t het
      · exact (ih q).2
    · rw [flowRegions_run_tfi O r rs q h2]
      have hm := flowLoop_master_tfi O r.innerWidth r.availableHeight (queueSize q) 0 q rfl
      constructor
      · intro ps hps p hp e he l t het
        rcases List.mem_cons.mp hps with hps | hps
        · subst hps
          exact hm.2.1 p hp e he l t het
        · obtain ⟨b, hb1, hb2, hb3, hb4⟩ :=
            (ih (flowLoop O r.innerWidth r.availableHeight 0 q).2).1 ps hps p hp e he l t het
          exact ⟨b, hm.2.2 b hb1 hb2, hb2, hb3, hb4⟩
      · intro b hb hh
        exact hm.2.2 b ((ih (flowLoop O r.innerWidth r.availableHeight 0 q).2).2 b hb hh) hh

end TFI

theorem copy_id (blocks : List Block) :
    blocks.map (fun b => { b with text := b.text }) = blocks := by
  simp

/-- Correctness of the binary search under a monotone fit predicate: with
`lo = 1`, `hi = n`, `best = lo - 1` and the invariants "everything at or
below `best` fits" and "everything above `hi` fails", the search returns
the greatest fitting count in `[1, n]` (or `0` when none fits). -/
theorem bsearchWords_max (fits : ℤ → Bool) (n : ℤ)
    (mono : ∀ j k : ℤ, 1 ≤ j → j ≤ k → k ≤ n → fits k = true → fits j = true) :
    ∀ lo hi best, 1 ≤ lo → lo ≤ hi + 1 → best = lo - 1 → hi ≤ n →
      (∀ k, 1 ≤ k → k ≤ best → fits k = true) →
      (∀ k, hi < k → k ≤ n → fits k = false) →
      (0 ≤ bsearchWords fits lo hi best ∧ bsearchWords fits lo hi best ≤ n ∧
        (bsearchWords fits lo hi best = 0 ∨
          (1 ≤ bsearchWords fits lo hi best ∧ fits (bsearchWords fits lo hi best) = true)) ∧
        (∀ k, bsearchWords fits lo hi best < k → k ≤ n → fits k = false)) := by
  intro lo hi best
  induction lo, hi, best using bsearchWords.induct fits with
  | case1 lo hi best hle mid hfits ih =>
    intro h1 hlohi hbest hhn hlow hhigh
    rw [bsearchWords, if_pos hle]
    simp only [show (lo + hi) / 2 = mid from rfl, hfits, if_pos]
    have hmidlo : lo ≤ mid := by omega
    have hmidhi : mid ≤ hi := by omega
    refine ih (by omega) (by omega) (by omega) hhn ?_ hhigh
    intro k hk1 hkm
    exact mono k mid hk1 (by omega) (by omega) hfits
  | case2 lo hi best hle mid hfits ih =>
    intro h1 hlohi hbest hhn hlow hhigh
    rw [bsearchWords, if_pos hle]
    simp only [show (lo + hi) / 2 = mid from rfl, hfits]
    simp only [Bool.false_eq_true, if_false]
    have hmidlo : lo ≤ mid := by omega
    have hmidhi : mid ≤ hi := by omega
    refine ih h1 (by omega) hbest (by omega) hlow ?_
    intro k hk1 hkn
    by_cases hkhi : hi < k
    · exact hhigh k hkhi hkn
    · have h1m : 1 ≤ mid := by omega
      by_cases hfk : fits k = true
      · exact absurd (mono mid k h1m (by omega) hkn hfk) (by simp [hfits])
      · simpa using hfk
  | case3 lo hi best hle =>
    intro h1 hlohi hbest hhn hlow hhigh
    rw [bsearchWords, if_neg hle]
    refine ⟨by omega, by omega, ?_, ?_⟩
    · by_cases hb0 : best = 0
      · exact Or.inl hb0
      · exact Or.inr ⟨by omega, hlow best (by omega) (le_refl best)⟩
    · intro k hbk hkn
      exact hhigh k (by omega) hkn

namespace TF

/-- Under a measurement monotone in the word count, the binary search of
`splitParagraph` finds the greatest prefix length whose measured height
fits the available height (or `0` when no prefix fits). -/
theorem bestWords_max (O : Oracle) (w : ℚ) (b : Block) (avail : ℚ)
    (mono : ∀ j k : ℕ, j ≤ k →
      O.measureElem w ((blockElem b "").withText (joinWs ((splitWs b.text).take j))) ≤
        O.measureElem w ((blockElem b "").withText (joinWs ((splitWs b.text).take k)))) :
    (bestWords O w b avail = 0 ∨ (1 ≤ bestWords O w b avail ∧
      O.measureElem w ((blockElem b "").withText
        (joinWs ((splitWs b.text).take (bestWords O w b avail).toNat))) ≤ avail)) ∧
    (∀ k : ℕ, bestWords O w b avail < (k : ℤ) → k ≤ (splitWs b.text).length →
      ¬ O.measureElem w ((blockElem b "").withText (joinWs ((splitWs b.text).take k))) ≤
        avail) := by
  have hmono' : ∀ j k : ℤ, 1 ≤ j → j ≤ k → k ≤ ((splitWs b.text).length : ℤ) →
      fitsPrefix O w b avail k = true → fitsPrefix O w b avail j = true := by
    intro j k h1 hjk hkn hf
    unfold fitsPrefix at hf ⊢
    rw [decide_eq_true_eq] at hf ⊢
    exact le_trans (mono j.toNat k.toNat (by omega)) hf
  have hmain := bsearchWords_max (fitsPrefix O w b avail) ((splitWs b.text).length : ℤ) hmono'
    1 ((splitWs b.text).length : ℤ) 0 (by omega) (by omega) (by omega) (le_refl _)
    (by intro k hk1 hk0; omega) (by intro k hk hkn; omega)
  obtain ⟨h0, hn, hfit, hmax⟩ := hmain
  constructor
  · rcases hfit with hz | ⟨h1, hf⟩
    · left; exact hz
    · right
      refine ⟨h1, ?_⟩
      unfold fitsPrefix at hf
      rw [decide_eq_true_eq] at hf
      exact hf
  · intro k hk hkn
    have := hmax (k : ℤ) hk (by omega)
    unfold fitsPrefix at this
    intro hc
    rw [decide_eq_false_iff_not] at this
    apply this
    simpa using hc

end TF

/-! ## Concrete instances for witnesses and counterexamples -/

/-- A measurement oracle whose element reads are 12px, whose node-list
reads are 100px, with a 5px line height. -/
def oW : Oracle :=
  { measureNodes := fun _ _ => 100, measureElem := fun _ _ => 12, lineHeight := fun _ => 5 }

/-- A two-word paragraph block with default orphan protection. -/
def bW : Block :=
  { id := "p1", btype := BType.paragraph, level := none, text := "x y",
    keepWithNext := false, orphanProtection := 2 }

theorem eval_words_bW : splitWs bW.text = ["x", "y"] := rfl

theorem eval_minHeight_W : TF.minHeightOf oW bW = 10 := by
  norm_num [TF.minHeightOf, minLinesOf, oW, bW, blockElem]

theorem eval_fits_W : ∀ m : ℤ, TF.fitsPrefix oW 100 bW 20 m = true := by
  intro m
  norm_num [TF.fitsPrefix, oW]

theorem eval_best_W : TF.bestWords oW 100 bW 20 = 2 := by
  unfold TF.bestWords
  rw [eval_words_bW]
  rw [bsearchWords]
  norm_num [eval_fits_W]
  rw [bsearchWords]
  norm_num [eval_fits_W]
  rw [bsearchWords]
  norm_num

theorem eval_split_W : TF.splitParagraph oW 100 bW 20 =
    { fitsWords := 2, firstText := "x y", restText := "" } := by
  have h4 : ¬ oW.measureElem 100 ((blockElem bW "").withText
      (joinWs ((splitWs bW.text).take (TF.bestWords oW 100 bW 20).toNat))) <
      TF.minHeightOf oW bW := by
    rw [eval_minHeight_W]
    norm_num [oW]
  have := TF.splitParagraph_eq_pos oW 100 bW 20 (by rw [eval_words_bW]; simp)
    (by rw [eval_minHeight_W]; norm_num) (by rw [eval_best_W]; norm_num) h4
  rw [this, eval_best_W, eval_words_bW]
  rfl

/-- An oracle that measures any two-node list as 25px and anything else as
10px, with 10px element reads and line height. -/
def oP : Oracle :=
  { measureNodes := fun _ els => if 2 ≤ els.length then 25 else 10,
    measureElem := fun _ _ => 10, lineHeight := fun _ => 10 }

/-- A keep-with-next paragraph block. -/
def bK : Block :=
  { id := "a", btype := BType.paragraph, level := none, text := "A",
    keepWithNext := true, orphanProtection := 2 }

/-- The successor block of `bK`. -/
def bN : Block :=
  { id := "b", btype := BType.paragraph, level := none, text := "B",
    keepWithNext := false, orphanProtection := 2 }

/-- A 10px-high visible region. -/
def rSmall : Region := { hasWrap := true, availableHeight := 10, innerWidth := 100 }

/-- A constant 10px oracle. -/
def oS : Oracle :=
  { measureNodes := fun _ _ => 10, measureElem := fun _ _ => 10, lineHeight := fun _ => 10 }

/-- A one-word paragraph block with default orphan protection. -/
def bH : Block :=
  { id := "h", btype := BType.paragraph, level := none, text := "hello",
    keepWithNext := false, orphanProtection := 2 }

/-- An oracle whose element reads are 5px with a 10px line height. -/
def oF : Oracle :=
  { measureNodes := fun _ _ => 100, measureElem := fun _ _ => 5, lineHeight := fun _ => 10 }

/-- A 30px-high visible region. -/
def rG : Region := { hasWrap := true, availableHeight := 30, innerWidth := 100 }

/-- A region with a non-positive available height. -/
def rBad : Region := { hasWrap := true, availableHeight := -1, innerWidth := 100 }

/-- A heading block. -/
def bHead : Block :=
  { id := "t", btype := BType.heading, level := some 2, text := "Title",
    keepWithNext := false, orphanProtection := 2 }

theorem eval_TFI_flow_oP :
    TFI.flow oP [bK, bN] [rSmall] =
      ([[{ els := [Elem.para "A"], height := 10 }]], [bN]) := by
  have hguard : ¬ (([bK, bN] : List Block).isEmpty ∨ ([rSmall] : List Region).isEmpty) := by
    simp
  have hcopy : ([bK, bN] : List Block).map (fun b => { b with text := b.text }) = [bK, bN] :=
    copy_id _
  have hstep1 : TFI.flowLoop oP 100 10 0 [bK, bN] =
      ({ els := [blockElem bK bK.text], height := oP.measureNodes 100 [blockElem bK bK.text] } ::
        (TFI.flowLoop oP 100 10 (0 + oP.measureNodes 100 [blockElem bK bK.text]) [bN]).1,
       (TFI.flowLoop oP 100 10 (0 + oP.measureNodes 100 [blockElem bK bK.text]) [bN]).2) :=
    TFI.flowLoop_single_fit_tfi oP 100 10 0 bK [bN] (by norm_num) (by norm_num [oP, blockElem, bK])
  have hm : oP.measureNodes 100 [blockElem bK bK.text] = 10 := by
    norm_num [oP, blockElem, bK]
  have hstep2 : TFI.flowLoop oP 100 10 (0 + (10:ℚ)) [bN] = ([], [bN]) :=
    TFI.flowLoop_nospace_tfi oP 100 10 (0 + 10) bN [] (by norm_num)
  have hloop : TFI.flowLoop oP 100 10 0 [bK, bN] =
      ([{ els := [Elem.para "A"], height := 10 }], [bN]) := by
    rw [hstep1]
    rw [hm, hstep2]
    rfl
  show TFI.flow oP [bK, bN] [rSmall] = _
  rw [TFI.flow]
  rw [if_neg hguard]
  rw [hcopy]
  rw [TFI.flowRegions_run_tfi oP rSmall [] [bK, bN] (by norm_num [rSmall])]
  show ((TFI.flowLoop oP rSmall.innerWidth rSmall.availableHeight 0 [bK, bN]).1 ::
      (TFI.flowRegions oP [] (TFI.flowLoop oP rSmall.innerWidth rSmall.availableHeight 0
        [bK, bN]).2).1,
    (TFI.flowRegions oP [] (TFI.flowLoop oP rSmall.innerWidth rSmall.availableHeight 0
      [bK, bN]).2).2) = _
  have hrw : rSmall.innerWidth = 100 := rfl
  have hrh : rSmall.availableHeight = 10 := rfl
  rw [hrw, hrh, hloop, TFI.flowRegions_nil_tfi]

theorem eval_TFI_grown :
    TFI.grown oS 100 bH 10 = ("hello", 1) := by
  unfold TFI.grown
  rw [show splitWs bH.text = ["hello"] from rfl]
  rw [TFI.growLoop]
  norm_num [oS, TFI.maxLinesOf]
  rw [TFI.growLoop]

theorem eval_TFI_split_bH :
    TFI.splitParagraph oS 100 bH 10 = { fitsWords := 1, firstText := "hello", restText := "" } := by
  have hml : TFI.maxLinesOf oS bH 10 = 1 := by
    norm_num [TFI.maxLinesOf, oS]
  have hbp : TFI.bestPair oS 100 bH 10 = ("hello", 1) := by
    unfold TFI.bestPair
    rw [eval_TFI_grown]
    norm_num
  rw [TFI.splitParagraph]
  rw [show splitWs bH.text = ["hello"] from rfl]
  norm_num [hml, hbp]
  rfl

theorem eval_split_F : TF.splitParagraph oF 100 bW 15 =
    { fitsWords := 0, firstText := "", restText := "x y" } := by
  have hm : TF.minHeightOf oF bW = 20 := by
    norm_num [TF.minHeightOf, minLinesOf, oF, bW, blockElem]
  rw [TF.splitParagraph]
  rw [show splitWs bW.text = ["x", "y"] from rfl, hm]
  norm_num
  simp [bW]

theorem eval_TF_flow_oS :
    TF.flow oS [bH] [rG] = ([[{ els := [Elem.para "hello"], height := 10 }]], []) := by
  have hstep1 : TF.flowLoop oS 100 30 0 [bH] =
      ({ els := [blockElem bH bH.text], height := oS.measureNodes 100 [blockElem bH bH.text] } ::
        (TF.flowLoop oS 100 30 (0 + oS.measureNodes 100 [blockElem bH bH.text]) []).1,
       (TF.flowLoop oS 100 30 (0 + oS.measureNodes 100 [blockElem bH bH.text]) []).2) :=
    TF.flowLoop_single_fit oS 100 30 0 bH [] (by norm_num) (Or.inr rfl) (by norm_num [oS])
  have hloop : TF.flowLoop oS 100 30 0 [bH] =
      ([{ els := [Elem.para "hello"], height := 10 }], []) := by
    rw [hstep1]
    rw [show oS.measureNodes 100 [blockElem bH bH.text] = 10 from rfl]
    rw [TF.flowLoop_nil]
    rfl
  rw [TF.flow, if_neg (by simp), copy_id]
  rw [TF.flowRegions_run oS rG [] [bH] (by norm_num [rG]) (by norm_num [rG])]
  show ((TF.flowLoop oS rG.innerWidth rG.availableHeight 0 [bH]).1 ::
      (TF.flowRegions oS [] (TF.flowLoop oS rG.innerWidth rG.availableHeight 0 [bH]).2).1,
    (TF.flowRegions oS [] (TF.flowLoop oS rG.innerWidth rG.availableHeight 0 [bH]).2).2) = _
  rw [show rG.innerWidth = 100 from rfl, show rG.availableHeight = 30 from rfl, hloop,
    TF.flowRegions_nil]

/-! ## Claims -/

/-- C1 (amended): in the canonical engine (`js/intro.js`), whenever the
block at the head of the Flow Queue has `keepWithNext = true`, a next
block exists and space remains, either the pair's combined measured
height fits the remaining space and both blocks are placed together as a
single group (the queue advancing past both), or no placement at all is
made for this region — the head block is not placed alone, even if it
alone would fit, and both blocks are left at the queue head for the next
region.  (As frozen, the claim quantifies over every flow pass of the
program; the `js/text-flow-intro.js` variant skips keep-with-next
handling entirely and can place the head block alone — see the
counterexample.) -/
theorem keepWithNext_pair_atomicity (O : Oracle) (w avail used : ℚ) (block next : Block)
    (rest2 : List Block) (hrem : ¬ avail - used ≤ 0) (hkw : block.keepWithNext = true) :
    (O.measureNodes w [blockElem block block.text, blockElem next next.text] ≤ avail - used →
      TF.flowLoop O w avail used (block :: next :: rest2) =
        ({ els := [blockElem block block.text, blockElem next next.text],
           height := O.measureNodes w [blockElem block block.text, blockElem next next.text] } ::
            (TF.flowLoop O w avail
              (used + O.measureNodes w [blockElem block block.text, blockElem next next.text])
              rest2).1,
         (TF.flowLoop O w avail
           (used + O.measureNodes w [blockElem block block.text, blockElem next next.text])
           rest2).2)) ∧
    (¬ O.measureNodes w [blockElem block block.text, blockElem next next.text] ≤ avail - used →
      TF.flowLoop O w avail used (block :: next :: rest2) = ([], block :: next :: rest2)) :=
  ⟨fun h => TF.flowLoop_pair_fit O w avail used block next rest2 hrem hkw h,
   fun h => TF.flowLoop_pair_nofit O w avail used block next rest2 hrem hkw h⟩

/-- C1 witness: the atomicity theorem at a concrete keep-with-next pair
whose combined height (25px) exceeds the region's remaining 10px. -/
theorem keepWithNext_pair_atomicity_witness :
    (oP.measureNodes 100 [blockElem bK bK.text, blockElem bN bN.text] ≤ 10 - 0 →
      TF.flowLoop oP 100 10 0 [bK, bN] =
        ({ els := [blockElem bK bK.text, blockElem bN bN.text],
           height := oP.measureNodes 100 [blockElem bK bK.text, blockElem bN bN.text] } ::
            (TF.flowLoop oP 100 10
              (0 + oP.measureNodes 100 [blockElem bK bK.text, blockElem bN bN.text]) []).1,
         (TF.flowLoop oP 100 10
           (0 + oP.measureNodes 100 [blockElem bK bK.text, blockElem bN bN.text]) []).2)) ∧
    (¬ oP.measureNodes 100 [blockElem bK bK.text, blockElem bN bN.text] ≤ 10 - 0 →
      TF.flowLoop oP 100 10 0 [bK, bN] = ([], [bK, bN])) :=
  keepWithNext_pair_atomicity oP 100 10 0 bK bN [] (by norm_num) rfl

/-- C1 counterexample: in the `js/text-flow-intro.js` flow, a queue head
with `keepWithNext = true` whose pair does not fit the region is placed
alone in that region (its successor deferred), contradicting the claimed
all-or-nothing rule for every flow pass. -/
theorem keepWithNext_skipped_cx :
    bK.keepWithNext = true ∧
    ¬ oP.measureNodes 100 [blockElem bK bK.text, blockElem bN bN.text] ≤
        rSmall.availableHeight ∧
    TFI.flow oP [bK, bN] [rSmall] =
      ([[{ els := [Elem.para "A"], height := 10 }]], [bN]) :=
  ⟨rfl, by norm_num [oP, blockElem, bK, bN, rSmall], eval_TFI_flow_oP⟩

/-- C2 (amended): in the canonical engine (`js/intro.js`),
`splitParagraph` enforces the orphan-protection floor
`minHeight = lineHeight * max 1 (orphanProtection || 2)`: an available
height below the floor is rejected outright (`fitsWords = 0`, whole
paragraph deferred), any offered fragment measures at least `minHeight`
(hence, for a non-negative line height, at least `orphanProtection` lines
worth of height), and every rejection defers the whole paragraph.  (As
frozen, the claim covers every `splitParagraph` of the program; the
`js/text-flow-intro.js` variant has no orphan floor and offers fragments
below it — see the counterexample.) -/
theorem orphanFloor (O : Oracle) (w : ℚ) (b : Block) (avail : ℚ)
    (hne : splitWs b.text ≠ []) :
    (avail < TF.minHeightOf O b →
      TF.splitParagraph O w b avail = { fitsWords := 0, firstText := "", restText := b.text }) ∧
    ((TF.splitParagraph O w b avail).fitsWords ≠ 0 →
      TF.minHeightOf O b ≤
        O.measureElem w ((blockElem b "").withText (TF.splitParagraph O w b avail).firstText)) ∧
    ((TF.splitParagraph O w b avail).fitsWords = 0 →
      (TF.splitParagraph O w b avail).restText = b.text) ∧
    (0 ≤ O.lineHeight (blockElem b "") →
      b.orphanProtection * O.lineHeight (blockElem b "") ≤ TF.minHeightOf O b) := by
  refine ⟨?_, ?_, ?_, ?_⟩
  · intro h
    simp [TF.splitParagraph, hne, h]
  · intro hz
    by_cases h2 : avail < TF.minHeightOf O b
    · exfalso; apply hz; simp [TF.splitParagraph, hne, h2]
    · by_cases h3 : TF.bestWords O w b avail = 0
      · exfalso; apply hz; simp [TF.splitParagraph, hne, h2, h3]
      · by_cases h4 : O.measureElem w ((blockElem b "").withText
            (joinWs ((splitWs b.text).take (TF.bestWords O w b avail).toNat))) <
            TF.minHeightOf O b
        · exfalso; apply hz; simp [TF.splitParagraph, hne, h2, h3, h4]
        · rw [TF.splitParagraph_eq_pos O w b avail hne h2 h3 h4]
          exact not_lt.mp h4
  · exact TF.splitParagraph_zero_rest O w b avail hne
  · intro hlh
    rw [TF.minHeightOf, mul_comm]
    apply mul_le_mul_of_nonneg_left _ hlh
    rw [minLinesOf]
    by_cases hop : b.orphanProtection = 0
    · rw [hop, if_pos rfl]
      norm_num
    · rw [if_neg hop]
      exact le_max_right _ _

/-- C2 witness: the floor theorem at a concrete oracle where the chosen
fragment (12px) meets the 10px floor and an under-floor available height
is rejected outright. -/
theorem orphanFloor_witness :
    (20 < TF.minHeightOf oW bW →
      TF.splitParagraph oW 100 bW 20 = { fitsWords := 0, firstText := "", restText := bW.text }) ∧
    ((TF.splitParagraph oW 100 bW 20).fitsWords ≠ 0 →
      TF.minHeightOf oW bW ≤
        oW.measureElem 100 ((blockElem bW "").withText (TF.splitParagraph oW 100 bW 20).firstText)) ∧
    ((TF.splitParagraph oW 100 bW 20).fitsWords = 0 →
      (TF.splitParagraph oW 100 bW 20).restText = bW.text) ∧
    (0 ≤ oW.lineHeight (blockElem bW "") →
      bW.orphanProtection * oW.lineHeight (blockElem bW "") ≤ TF.minHeightOf oW bW) :=
  orphanFloor oW 100 bW 20 (by decide)

/-- C2 counterexample: the `js/text-flow-intro.js` `splitParagraph`
offers a one-line (10px) fragment for a block whose `orphanProtection` is
2, i.e. below the two-line (20px) floor the claim asserts for every
fragment offered for placement. -/
theorem orphanFloor_violated_cx :
    (TFI.splitParagraph oS 100 bH 10).fitsWords ≠ 0 ∧
    oS.measureElem 100 ((blockElem bH "").withText (TFI.splitParagraph oS 100 bH 10).firstText) <
      oS.lineHeight (blockElem bH "") * bH.orphanProtection ∧
    bH.orphanProtection = 2 := by
  rw [eval_TFI_split_bH]
  refine ⟨by decide, ?_, rfl⟩
  norm_num [oS, bH]

/-- C3 (amended): in the canonical engine (`js/intro.js`), provided the
measurement oracle is monotone in the word count of the measured prefix
and the split is accepted (`fitsWords ≠ 0`, i.e. it passes the
orphan-protection floor), `splitParagraph` returns the longest word-prefix
of the paragraph's text whose measured height does not exceed the
available height, found by binary search: the result is exactly the first
`k` words joined by single spaces, no longer prefix fits, the remainder is
the dropped words joined by single spaces, prefix and remainder words
concatenate to the original word sequence, and the queue-head block
rewritten with the remainder keeps its `keepWithNext` and
`orphanProtection` values.  (As frozen — "for every non-empty paragraph
and available height" — the claim fails when the orphan floor rejects the
split: see the counterexample.) -/
theorem splitLongestPrefix (O : Oracle) (w : ℚ) (b : Block) (avail : ℚ)
    (mono : ∀ j k : ℕ, j ≤ k →
      O.measureElem w ((blockElem b "").withText (joinWs ((splitWs b.text).take j))) ≤
        O.measureElem w ((blockElem b "").withText (joinWs ((splitWs b.text).take k))))
    (hz : (TF.splitParagraph O w b avail).fitsWords ≠ 0) :
    ∃ k : ℕ, 1 ≤ k ∧ k ≤ (splitWs b.text).length ∧
      TF.splitParagraph O w b avail =
        { fitsWords := (k : ℤ), firstText := joinWs ((splitWs b.text).take k),
          restText := joinWs ((splitWs b.text).drop k) } ∧
      O.measureElem w ((blockElem b "").withText (joinWs ((splitWs b.text).take k))) ≤ avail ∧
      (∀ m : ℕ, k < m → m ≤ (splitWs b.text).length →
        ¬ O.measureElem w ((blockElem b "").withText (joinWs ((splitWs b.text).take m))) ≤
          avail) ∧
      splitWs (joinWs ((splitWs b.text).take k)) ++ splitWs (joinWs ((splitWs b.text).drop k)) =
        splitWs b.text ∧
      ({ b with text := joinWs ((splitWs b.text).drop k) } : Block).keepWithNext =
        b.keepWithNext ∧
      ({ b with text := joinWs ((splitWs b.text).drop k) } : Block).orphanProtection =
        b.orphanProtection := by
  rcases TF.splitParagraph_cases O w b avail with ⟨_, he⟩ | ⟨_, he⟩ | ⟨h1, h3, he⟩
  · rw [he] at hz; simp at hz
  · rw [he] at hz; simp at hz
  · obtain ⟨hb0, hbn⟩ := TF.bestWords_nonneg O w b avail
    obtain ⟨hbm1, hbm2⟩ := TF.bestWords_max O w b avail mono
    refine ⟨(TF.bestWords O w b avail).toNat, by omega, by omega, ?_, ?_, ?_, ?_, rfl, rfl⟩
    · rw [he]
      have : ((TF.bestWords O w b avail).toNat : ℤ) = TF.bestWords O w b avail :=
        Int.toNat_of_nonneg hb0
      rw [this]
    · rcases hbm1 with hb | ⟨_, hfit⟩
      · exact absurd hb h3
      · exact hfit
    · intro m hm hmn
      exact hbm2 m (by omega) hmn
    · rw [splitWs_joinWs_take, splitWs_joinWs_drop, List.take_append_drop]

/-- C3 witness: the longest-prefix theorem at a constant-measure oracle
(trivially monotone) where the whole two-word paragraph fits. -/
theorem splitLongestPrefix_witness :
    ∃ k : ℕ, 1 ≤ k ∧ k ≤ (splitWs bW.text).length ∧
      TF.splitParagraph oW 100 bW 20 =
        { fitsWords := (k : ℤ), firstText := joinWs ((splitWs bW.text).take k),
          restText := joinWs ((splitWs bW.text).drop k) } ∧
      oW.measureElem 100 ((blockElem bW "").withText (joinWs ((splitWs bW.text).take k))) ≤ 20 ∧
      (∀ m : ℕ, k < m → m ≤ (splitWs bW.text).length →
        ¬ oW.measureElem 100 ((blockElem bW "").withText (joinWs ((splitWs bW.text).take m))) ≤
          20) ∧
      splitWs (joinWs ((splitWs bW.text).take k)) ++
          splitWs (joinWs ((splitWs bW.text).drop k)) = splitWs bW.text ∧
      ({ bW with text := joinWs ((splitWs bW.text).drop k) } : Block).keepWithNext =
        bW.keepWithNext ∧
      ({ bW with text := joinWs ((splitWs bW.text).drop k) } : Block).orphanProtection =
        bW.orphanProtection :=
  splitLongestPrefix oW 100 bW 20 (fun j k hjk => le_refl _)
    (by rw [eval_split_W]; decide)

/-- C3 counterexample: with a 10px line height, default orphan protection
(20px floor) and 15px available, `splitParagraph` (`js/intro.js`) rejects
the split outright (`fitsWords = 0`, empty prefix) although the longest
fitting word-prefix is the entire two-word text, which measures 5px ≤
15px — so the function does not return the longest fitting prefix for
every non-empty paragraph and available height. -/
theorem splitLongestPrefix_cx :
    TF.splitParagraph oF 100 bW 15 = { fitsWords := 0, firstText := "", restText := "x y" } ∧
    oF.measureElem 100 ((blockElem bW "").withText (joinWs ((splitWs bW.text).take 2))) ≤ 15 ∧
    (splitWs bW.text).length = 2 ∧
    joinWs ((splitWs bW.text).take 2) ≠ "" :=
  ⟨eval_split_F, by norm_num [oF], by decide, by decide⟩

/-- C4: no overflow writes — in both engines, for every flow pass and
every region, the sum of the measured heights of the placements written
into a region never exceeds that region's available height (each placement
is admitted only when its measured height is at most the remaining
space). -/
theorem noOverflow :
    (∀ (O : Oracle) (blocks : List Block) (regions : List Region) (i : ℕ)
      (hi : i < regions.length) (hj : i < (TF.flow O blocks regions).1.length),
      0 ≤ regions[i].availableHeight →
        sumHeights (TF.flow O blocks regions).1[i] ≤ regions[i].availableHeight) ∧
    (∀ (O : Oracle) (blocks : List Block) (regions : List Region) (i : ℕ)
      (hi : i < regions.length) (hj : i < (TFI.flow O blocks regions).1.length),
      0 ≤ regions[i].availableHeight →
        sumHeights (TFI.flow O blocks regions).1[i] ≤ regions[i].availableHeight) := by
  constructor
  · intro O blocks regions i hi hj hpos
    by_cases hg : blocks.isEmpty ∨ regions.isEmpty
    · exfalso
      rw [TF.flow, if_pos hg] at hj
      simp at hj
    · have he : TF.flow O blocks regions = TF.flowRegions O regions blocks := by
        rw [TF.flow, if_neg hg, copy_id]
      simp only [he] at hj ⊢
      exact TF.flowRegions_overflow O regions blocks i hi hj hpos
  · intro O blocks regions i hi hj hpos
    by_cases hg : blocks.isEmpty ∨ regions.isEmpty
    · exfalso
      rw [TFI.flow, if_pos hg] at hj
      simp at hj
    · have he : TFI.flow O blocks regions = TFI.flowRegions O regions blocks := by
        rw [TFI.flow, if_neg hg, copy_id]
      simp only [he] at hj ⊢
      exact TFI.flowRegions_overflow_tfi O regions blocks i hi hj hpos

/-- C4 witness: the no-overflow theorem at a concrete one-block pass into
a 30px region, whose single 10px placement sums to 10 ≤ 30. -/
theorem noOverflow_witness :
    sumHeights [{ els := [Elem.para "hello"], height := (10:ℚ) }] ≤ rG.availableHeight := by
  have hj : 0 < (TF.flow oS [bH] [rG]).1.length := by
    rw [eval_TF_flow_oS]; simp
  have := noOverflow.1 oS [bH] [rG] 0 (by simp) hj (by norm_num [rG])
  simpa [eval_TF_flow_oS] using this

/-- C5: heading atomicity — in both engines a heading is never split:
a non-fitting heading at the queue head abandons the region, leaving the
heading at the queue head for the next region, and every heading element
ever placed by a flow pass carries the complete text (and clamped level)
of a heading block of the stored block list. -/
theorem headingAtomicity :
    (∀ (O : Oracle) (w avail used : ℚ) (block : Block) (rest : List Block),
      ¬ avail - used ≤ 0 → (block.keepWithNext = false ∨ rest = []) →
      ¬ O.measureNodes w [blockElem block block.text] ≤ avail - used →
      block.btype ≠ BType.paragraph →
      TF.flowLoop O w avail used (block :: rest) = ([], block :: rest)) ∧
    (∀ (O : Oracle) (blocks : List Block) (regions : List Region),
      ∀ ps ∈ (TF.flow O blocks regions).1, ∀ p ∈ ps, ∀ e ∈ p.els, ∀ l t,
        e = Elem.heading l t →
        ∃ b, b ∈ blocks ∧ b.btype = BType.heading ∧ t = b.text ∧ l = clampLevel b.level) ∧
    (∀ (O : Oracle) (w avail used : ℚ) (block : Block) (rest : List Block),
      ¬ avail - used ≤ 0 →
      ¬ O.measureNodes w [blockElem block block.text] ≤ avail - used →
      block.btype ≠ BType.paragraph →
      TFI.flowLoop O w avail used (block :: rest) = ([], block :: rest)) ∧
    (∀ (O : Oracle) (blocks : List Block) (regions : List Region),
      ∀ ps ∈ (TFI.flow O blocks regions).1, ∀ p ∈ ps, ∀ e ∈ p.els, ∀ l t,
        e = Elem.heading l t →
        ∃ b, b ∈ blocks ∧ b.btype = BType.heading ∧ t = b.text ∧ l = clampLevel b.level) := by
  refine ⟨?_, ?_, ?_, ?_⟩
  · intro O w avail used block rest hrem hsingle hfit hb
    exact TF.flowLoop_heading_break O w avail used block rest hrem hsingle hfit hb
  · intro O blocks regions ps hps p hp e he l t het
    by_cases hg : blocks.isEmpty ∨ regions.isEmpty
    · rw [TF.flow, if_pos hg] at hps
      simp at hps
    · have he' : TF.flow O blocks regions = TF.flowRegions O regions blocks := by
        rw [TF.flow, if_neg hg, copy_id]
      rw [he'] at hps
      exact (TF.flowRegions_headings O regions blocks).1 ps hps p hp e he l t het
  · intro O w avail used block rest hrem hfit hb
    exact TFI.flowLoop_heading_break_tfi O w avail used block rest hrem hfit hb
  · intro O blocks regions ps hps p hp e he l t het
    by_cases hg : blocks.isEmpty ∨ regions.isEmpty
    · rw [TFI.flow, if_pos hg] at hps
      simp at hps
    · have he' : TFI.flow O blocks regions = TFI.flowRegions O regions blocks := by
        rw [TFI.flow, if_neg hg, copy_id]
      rw [he'] at hps
      exact (TFI.flowRegions_headings_tfi O regions blocks).1 ps hps p hp e he l t het

/-- C5 witness: the abandon rule at a concrete 100px-tall heading facing
10px of space: nothing is placed and the heading stays at the queue
head. -/
theorem headingAtomicity_witness :
    TF.flowLoop oW 100 10 0 [bHead] = ([], [bHead]) :=
  headingAtomicity.1 oW 100 10 0 bHead [] (by norm_num) (Or.inl rfl)
    (by norm_num [oW]) (by decide)

/-- C6: order preservation — for every flow pass of the canonical engine
(`js/intro.js`), the words of all placed content, concatenated across all
regions in region order, form a prefix of the words of the original block
sequence in document order: content is never reordered or duplicated,
only possibly truncated at the end (the queue is drained strictly
front-to-back). -/
theorem orderPreservation (O : Oracle) (blocks : List Block) (regions : List Region) :
    placedWordsAll (TF.flow O blocks regions).1 <+: queueWords blocks := by
  by_cases hg : blocks.isEmpty ∨ regions.isEmpty
  · rw [TF.flow, if_pos hg]
    simp
  · have he : TF.flow O blocks regions = TF.flowRegions O regions blocks := by
      rw [TF.flow, if_neg hg, copy_id]
    rw [he]
    have hw := TF.flowRegions_words O regions blocks
    rw [← hw]
    exact List.prefix_append _ _

/-- C7: idempotence — a flow pass of the canonical engine reads the
stored block list but never writes it (paragraph splitting rewrites
`text` only on the queue's shallow copies), so the stored blocks are
unchanged after a pass and running the pass again with the same oracle,
blocks and regions yields the identical placement. -/
theorem flowPass_idempotent (O : Oracle) (blocks : List Block) (regions : List Region) :
    (TF.flowPass O blocks regions).2 = blocks ∧
    TF.flowPass O (TF.flowPass O blocks regions).2 regions = TF.flowPass O blocks regions ∧
    (TF.flowPass O blocks regions).1 = (TF.flowPass O (TF.flowPass O blocks regions).2 regions).1 :=
  ⟨rfl, rfl, rfl⟩

/-- C8: fragment re-measurement guard — in both engines, after
`splitParagraph` offers a non-zero fitting prefix, the flow loop
re-measures the fragment element with the node-level measurement; when
that re-measurement exceeds the remaining space the fragment is not
placed, the head block's text is left unchanged (the whole paragraph,
prefix included, is deferred) and the region is abandoned. -/
theorem fragmentRemeasureGuard :
    (∀ (O : Oracle) (w avail used : ℚ) (block : Block) (rest : List Block),
      ¬ avail - used ≤ 0 → (block.keepWithNext = false ∨ rest = []) →
      ¬ O.measureNodes w [blockElem block block.text] ≤ avail - used →
      block.btype = BType.paragraph →
      (TF.splitParagraph O w block (avail - used)).fitsWords ≠ 0 →
      ¬ O.measureNodes w
          [blockElem block (TF.splitParagraph O w block (avail - used)).firstText] ≤
        avail - used →
      TF.flowLoop O w avail used (block :: rest) = ([], block :: rest)) ∧
    (∀ (O : Oracle) (w avail used : ℚ) (block : Block) (rest : List Block),
      ¬ avail - used ≤ 0 →
      ¬ O.measureNodes w [blockElem block block.text] ≤ avail - used →
      block.btype = BType.paragraph →
      (TFI.splitParagraph O w block (avail - used)).fitsWords ≠ 0 →
      ¬ O.measureNodes w
          [blockElem block (TFI.splitParagraph O w block (avail - used)).firstText] ≤
        avail - used →
      TFI.flowLoop O w avail used (block :: rest) = ([], block :: rest)) :=
  ⟨fun O w avail used block rest hrem hsingle hfit hb hz hf =>
    TF.flowLoop_frag_nofit O w avail used block rest hrem hsingle hfit hb hz hf,
   fun O w avail used block rest hrem hfit hb hz hf =>
    TFI.flowLoop_frag_nofit_tfi O w avail used block rest hrem hfit hb hz hf⟩

/-- C8 witness: the guard at a concrete disagreeing oracle — the element
read (12px) accepts the whole two-word prefix, but the node-level
re-measurement (100px) exceeds the 20px of space, so nothing is placed
and the paragraph is left whole at the queue head. -/
theorem fragmentRemeasureGuard_witness :
    TF.flowLoop oW 100 20 0 [bW] = ([], [bW]) :=
  fragmentRemeasureGuard.1 oW 100 20 0 bW [] (by norm_num) (Or.inr rfl)
    (by norm_num [oW])
    rfl
    (by rw [show (20:ℚ) - 0 = 20 by norm_num, eval_split_W]; decide)
    (by norm_num [oW])

/-- C9: invalid regions are skipped — in both engines, a region whose
available height or inner width is non-positive receives no content, the
Flow Queue reaches the following regions unchanged, and the pass
continues with the next region instead of terminating. -/
theorem invalidRegionSkipped :
    (∀ (O : Oracle) (r : Region) (rs : List Region) (q : List Block),
      r.availableHeight ≤ 0 ∨ r.innerWidth ≤ 0 →
      TF.flowRegions O (r :: rs) q =
        ([] :: (TF.flowRegions O rs q).1, (TF.flowRegions O rs q).2)) ∧
    (∀ (O : Oracle) (r : Region) (rs : List Region) (q : List Block),
      r.availableHeight ≤ 0 ∨ r.innerWidth ≤ 0 →
      TFI.flowRegions O (r :: rs) q =
        ([] :: (TFI.flowRegions O rs q).1, (TFI.flowRegions O rs q).2)) :=
  ⟨fun O r rs q h => TF.flowRegions_skip_dims O r rs q h,
   fun O r rs q h => TFI.flowRegions_skip_dims_tfi O r rs q h⟩

/-- C9 witness: a region of height −1 is skipped with the queue passed on
unchanged. -/
theorem invalidRegionSkipped_witness :
    TF.flowRegions oW [rBad] [bHead] =
      ([] :: (TF.flowRegions oW [] [bHead]).1, (TF.flowRegions oW [] [bHead]).2) :=
  invalidRegionSkipped.1 oW rBad [] [bHead] (by norm_num [rBad])

/-- A raw JSON block record carrying an explicit numeric zero
`orphanProtection`. -/
def raw0 : RawBlock :=
  { rtype := "paragraph", id := some "x", level := none, text := some "t",
    keepWithNext := false, orphanProtection := some 0 }

/-- A paragraph block whose `orphanProtection` is explicitly zero. -/
def b0 : Block := { bH with orphanProtection := 0 }

/-- C10: an explicit `orphanProtection` of 0 survives the Block Builder
(the `typeof` check accepts the number 0), but `splitParagraph`
(`js/intro.js`) treats it as the default floor of 2 lines, because
`block.orphanProtection || 2` replaces the falsy 0 with 2 before the
`Math.max(1, ·)` clamp — an explicit 0 cannot disable orphan protection
and behaves exactly like an `orphanProtection` of 2. -/
theorem orphanZeroTreatedAsTwo :
    (∀ (i : ℕ) (raw : RawBlock), raw.rtype = "paragraph" → raw.orphanProtection = some 0 →
      ∃ b, buildBlock i raw = some b ∧ b.orphanProtection = 0) ∧
    (∀ b : Block, b.orphanProtection = 0 → minLinesOf b = 2) ∧
    (∀ (O : Oracle) (w : ℚ) (b : Block) (avail : ℚ), b.orphanProtection = 0 →
      TF.splitParagraph O w b avail =
        TF.splitParagraph O w { b with orphanProtection := 2 } avail) := by
  refine ⟨?_, ?_, ?_⟩
  · intro i raw hp h0
    simp only [buildBlock, hp, h0]
    norm_num
    exact ⟨_, rfl, rfl⟩
  · intro b hop
    simp [minLinesOf, hop]
  · intro O w b avail hop
    have htext : ({ b with orphanProtection := (2:ℚ) } : Block).text = b.text := rfl
    have hbe : ∀ t, blockElem { b with orphanProtection := (2:ℚ) } t = blockElem b t := by
      intro t
      cases hb : b.btype <;> simp [blockElem, hb]
    have hml : minLinesOf { b with orphanProtection := (2:ℚ) } = minLinesOf b := by
      simp [minLinesOf, hop]
    have hmh : TF.minHeightOf O { b with orphanProtection := (2:ℚ) } = TF.minHeightOf O b := by
      rw [TF.minHeightOf, TF.minHeightOf, hml, hbe]
    have hfits : TF.fitsPrefix O w { b with orphanProtection := (2:ℚ) } avail =
        TF.fitsPrefix O w b avail := by
      funext mid
      rw [TF.fitsPrefix, TF.fitsPrefix, htext, hbe]
    have hbest : TF.bestWords O w { b with orphanProtection := (2:ℚ) } avail =
        TF.bestWords O w b avail := by
      rw [TF.bestWords, TF.bestWords, htext, hfits]
    rw [TF.splitParagraph, TF.splitParagraph, htext, hbe, hmh, hbest]

/-- C10 witness: the zero-orphan theorem at a concrete raw block and a
concrete split. -/
theorem orphanZeroTreatedAsTwo_witness :
    (∃ b, buildBlock 0 raw0 = some b ∧ b.orphanProtection = 0) ∧
    minLinesOf b0 = 2 ∧
    TF.splitParagraph oS 100 b0 10 =
      TF.splitParagraph oS 100 { b0 with orphanProtection := 2 } 10 :=
  ⟨orphanZeroTreatedAsTwo.1 0 raw0 rfl rfl,
   orphanZeroTreatedAsTwo.2.1 b0 rfl,
   orphanZeroTreatedAsTwo.2.2 oS 100 b0 10 rfl⟩
